import Mathlib

/-!
Verification of the torchoptics free-space propagation engine against its
natural-language specification.

The Python source is shallowly embedded: tensors over the two planar axes
become total functions `ℕ → ℕ → ℂ` (or `ℝ`) together with explicit sizes,
floating-point reals become exact reals `ℝ`, and fallible code returns
`Except PropError`.  Machine-float special values (NaN / inf) are modelled
explicitly where the code manipulates them (`torch.nan_to_num`,
the `NaNs in kz` check).  The `System` path logic, which only compares and
sorts `z` coordinates, is embedded over `ℚ` so that its theorems are
decidable; dtype-promotion behaviour is embedded as a small enumeration
mirroring torch's type-promotion rules for the operations used.
-/

namespace TorchOptics

noncomputable section

open scoped Real
open Finset

/-! ### Frequency axes

`fftfreq_grad` is the source's gradient-tracking replacement for
`torch.fft.fftfreq` (src/torchoptics/functional/functional.py):

  val = torch.arange(0, n)
  k = torch.where(val < (n // 2), val, val - n)
  return k * (1.0 / (n * d))
-/

/-- Embedding of `torchoptics.functional.fftfreq_grad`: the `i`-th DFT sample
frequency for `n` samples with spacing `d`, as computed by the source. -/
def fftfreq_grad (n : ℕ) (d : ℝ) (i : ℕ) : ℝ :=
  (if (i : ℤ) < (n / 2 : ℕ) then (i : ℤ) else (i : ℤ) - n) * (1 / (n * d))

/-- The standard DFT sample frequencies (`torch.fft.fftfreq` semantics, the
reference used by the repository's own test `test_fftfreq_grad_values`):
the sequence `[0, 1, ..., (n-1)//2, -(n - (n-1)//2 - 1), ..., -1] / (n*d)`,
whose positive half runs up to index `(n-1)//2 = (n+1)//2 - 1`. -/
def torch_fftfreq (n : ℕ) (d : ℝ) (i : ℕ) : ℝ :=
  (if (i : ℤ) < ((n + 1) / 2 : ℕ) then (i : ℤ) else (i : ℤ) - n) * (1 / (n * d))

/-- One-dimensional `torch.fft.fftshift` on an axis of length `n`:
`out[i] = in[(i + (n - n/2)) % n]`, rolling the zero-frequency sample to the
centre index `n/2`. -/
def fftshift1 (n : ℕ) (f : ℕ → ℝ) (i : ℕ) : ℝ :=
  f ((i + (n - n / 2)) % n)

/-- The frequency axis actually used by the ASM propagator along one axis
(`fftshift(fftfreq_grad(n, d))` in `calculate_transfer_function`). -/
def asm_freq_axis (n : ℕ) (d : ℝ) (i : ℕ) : ℝ :=
  fftshift1 n (fftfreq_grad n d) i

/-- The frequency axis the specification claims is used: `fftshift` of the
standard DFT sample frequencies. -/
def spec_freq_axis (n : ℕ) (d : ℝ) (i : ℕ) : ℝ :=
  fftshift1 n (torch_fftfreq n d) i

/-- C3: the code's frequency axis agrees with `fftshift` of the standard DFT
sample frequencies for even lengths, but for `n = 3, d = 1` the two differ:
at the unshifted index `1` (centred index `2`) `fftfreq_grad` yields `-2/3`
where `torch.fft.fftfreq` — asserted equal by the repository's own test
`test_fftfreq_grad_values`, which covers the odd lengths 1, 3 and 31 —
yields `1/3`.  The guard `val < n // 2` should be `val < (n + 1) // 2`. -/
theorem fftfreq_grad_odd_mismatch :
    fftfreq_grad 3 1 1 = -2 / 3 ∧ torch_fftfreq 3 1 1 = 1 / 3 ∧
      asm_freq_axis 3 1 2 = -2 / 3 ∧ spec_freq_axis 3 1 2 = 1 / 3 ∧
      fftfreq_grad 1 1 0 = -1 ∧ torch_fftfreq 1 1 0 = 0 := by
  norm_num [fftfreq_grad, torch_fftfreq, asm_freq_axis, spec_freq_axis, fftshift1]

/-! ### Planar geometry and fields

`PlanarGeometry` (src/torchoptics/planar_geometry.py) carries `shape`, `z`,
`spacing`, `offset`.  `Field` (src/torchoptics/fields.py) additionally owns
complex data, a wavelength, and — on the propagation path — the
`asm_pad_factor` pair and `propagation_method` string read by
`calculate_transfer_function` and `apply_transfer_function`. -/

/-- Embedding of `PlanarGeometry` for a target plane: pixel counts `m, n`,
axial position `z`, spacings `d1, d2`, offsets `o1, o2`. -/
structure Plane where
  m : ℕ
  n : ℕ
  z : ℝ
  d1 : ℝ
  d2 : ℝ
  o1 : ℝ
  o2 : ℝ

/-- Embedding of `Field`: planar data as a total function (only indices below
`m` and `n` are meaningful), geometry, wavelength, the ASM pad factors
(validated non-negative integers, hence `ℕ`) and the propagation-method
string consulted by `calculate_transfer_function`. -/
structure Field where
  m : ℕ
  n : ℕ
  data : ℕ → ℕ → ℂ
  wavelength : ℝ
  z : ℝ
  d1 : ℝ
  d2 : ℝ
  o1 : ℝ
  o2 : ℝ
  p1 : ℕ
  p2 : ℕ
  propagation_method : String

/-- Grid-point bounds of one axis (`PlanarGeometry.bounds(use_grid_points=True)`):
`offset ± spacing * (count - 1) / 2`. -/
def boundsGP (sz : ℕ) (d o : ℝ) : ℝ × ℝ :=
  (o - d * ((sz : ℝ) - 1) / 2, o + d * ((sz : ℝ) - 1) / 2)

/-! ### Discrete Fourier transforms (torch.fft collaborators)

`torch.fft.fft2` / `ifft2` over the trailing two axes, and the
zero-frequency-centering shifts over both trailing axes. -/

/-- Forward 2D DFT of size `M × N`:
`X[u,v] = sum_{a<M} sum_{b<N} x[a,b] * exp(-2*pi*I*(u*a/M + v*b/N))`. -/
def fft2 (M N : ℕ) (x : ℕ → ℕ → ℂ) (u v : ℕ) : ℂ :=
  ∑ a ∈ range M, ∑ b ∈ range N,
    x a b * Complex.exp (-(2 * (π : ℂ) * Complex.I) *
      ((u : ℂ) * a / M + (v : ℂ) * b / N))

/-- Inverse 2D DFT of size `M × N` (with the `1/(M*N)` normalisation used by
`torch.fft.ifft2`). -/
def ifft2 (M N : ℕ) (y : ℕ → ℕ → ℂ) (a b : ℕ) : ℂ :=
  (1 / ((M : ℂ) * N)) * ∑ u ∈ range M, ∑ v ∈ range N,
    y u v * Complex.exp ((2 * (π : ℂ) * Complex.I) *
      ((u : ℂ) * a / M + (v : ℂ) * b / N))

/-- `torch.fft.fftshift` over both trailing axes:
`out[i,j] = in[(i + (M - M/2)) % M, (j + (N - N/2)) % N]`. -/
def fftshift2 (M N : ℕ) (x : ℕ → ℕ → ℂ) (i j : ℕ) : ℂ :=
  x ((i + (M - M / 2)) % M) ((j + (N - N / 2)) % N)

/-- `torch.fft.ifftshift` over both trailing axes:
`out[i,j] = in[(i + M/2) % M, (j + N/2) % N]`. -/
def ifftshift2 (M N : ℕ) (x : ℕ → ℕ → ℂ) (i j : ℕ) : ℂ :=
  x ((i + M / 2) % M) ((j + N / 2) % N)

/-- `torch.nn.functional.pad` with constant zeros: `px` rows before and after
the `m` data rows, `py` columns before and after the `n` data columns. -/
def zero_pad (m n px py : ℕ) (x : ℕ → ℕ → ℂ) (i j : ℕ) : ℂ :=
  if px ≤ i ∧ i < px + m ∧ py ≤ j ∧ j < py + n then x (i - px) (j - py) else 0

/-! ### The ASM transfer function
(src/torchoptics/propagation/angular_spectrum_method.py) -/

/-- First component of `padded_input_shape = shape * (2 * asm_pad_factor + 1)`. -/
def padded_shape1 (f : Field) : ℕ := f.m * (2 * f.p1 + 1)

/-- Second component of `padded_input_shape`. -/
def padded_shape2 (f : Field) : ℕ := f.n * (2 * f.p2 + 1)

/-- The `kx` meshgrid value (constant along `j`):
`2*pi` times the shifted frequency axis along the first padded axis. -/
def kxVal (f : Field) (i : ℕ) : ℝ :=
  asm_freq_axis (padded_shape1 f) f.d1 i * (2 * π)

/-- The `ky` meshgrid value (constant along `i`). -/
def kyVal (f : Field) (j : ℕ) : ℝ :=
  asm_freq_axis (padded_shape2 f) f.d2 j * (2 * π)

/-- The wavenumber `k = 2*pi / wavelength`. -/
def kVal (f : Field) : ℝ := 2 * π / f.wavelength

/-- The radicand `k^2 - kx^2 - ky^2` whose sign decides the evanescent
(NaN) error. -/
def kzArg (f : Field) (i j : ℕ) : ℝ :=
  kVal f ^ 2 - kxVal f i ^ 2 - kyVal f j ^ 2

/-- `kz = sqrt(k^2 - kx^2 - ky^2)` (real square root; the source's NaN for a
negative radicand is handled by the explicit error check below). -/
def kzVal (f : Field) (i j : ℕ) : ℝ := Real.sqrt (kzArg f i j)

/-- The membership test `field.propagation_method in {"ASM_FRESNEL", "AUTO_FRESNEL"}`. -/
def isFresnel (f : Field) : Prop :=
  f.propagation_method = "ASM_FRESNEL" ∨ f.propagation_method = "AUTO_FRESNEL"

instance (f : Field) : Decidable (isFresnel f) := by
  unfold isFresnel
  infer_instance

/-- The transfer-function sample at padded-grid index `(i, j)` for propagation
distance `dist`: the Fresnel-approximated kernel on the `ASM_FRESNEL` /
`AUTO_FRESNEL` branch, the Rayleigh–Sommerfeld kernel `exp(1j*kz*dist)`
otherwise. -/
def tfVal (f : Field) (dist : ℝ) (i j : ℕ) : ℂ :=
  if isFresnel f then
    Complex.exp (Complex.I * (kVal f) * dist) *
      Complex.exp (-Complex.I * f.wavelength * dist *
        ((kxVal f i) ^ 2 + (kyVal f j) ^ 2) / (4 * (π : ℂ)))
  else
    Complex.exp (Complex.I * (kzVal f i j) * dist)

/-- Error outcomes of `asm_propagation`: the `"NaNs in kz"` `ValueError` of
`calculate_transfer_function`, and the out-of-bounds `ValueError` of
`validate_bounds`. -/
inductive PropError where
  | nanKz : PropError
  | boundsError : PropError
deriving DecidableEq

open Classical in
/-- Embedding of `calculate_transfer_function`: checks `torch.any(torch.isnan(kz))`
— in exact arithmetic, `kz` has a NaN sample iff the radicand is negative at
some padded-grid index — and otherwise returns the transfer-function grid. -/
def calculate_transfer_function (f : Field) (dist : ℝ) :
    Except PropError (ℕ → ℕ → ℂ) :=
  if ∃ i < padded_shape1 f, ∃ j < padded_shape2 f, kzArg f i j < 0 then
    .error .nanKz
  else
    .ok (tfVal f dist)

/-- Embedding of `apply_transfer_function`: zero-pad by
`asm_pad_factor[i] * shape[i]` per side, centred forward FFT, multiply by the
transfer function, centred inverse FFT. -/
def apply_transfer_function (tf : ℕ → ℕ → ℂ) (f : Field) : ℕ → ℕ → ℂ :=
  ifft2 (f.m + 2 * (f.p1 * f.m)) (f.n + 2 * (f.p2 * f.n))
    (ifftshift2 (f.m + 2 * (f.p1 * f.m)) (f.n + 2 * (f.p2 * f.n)) (fun u v =>
      fftshift2 (f.m + 2 * (f.p1 * f.m)) (f.n + 2 * (f.p2 * f.n))
        (fft2 (f.m + 2 * (f.p1 * f.m)) (f.n + 2 * (f.p2 * f.n))
          (zero_pad f.m f.n (f.p1 * f.m) (f.p2 * f.n) f.data)) u v
        * tf u v))

/-- Embedding of `validate_bounds`: the target plane's grid-point bounds must
lie inside the propagated (padded) field's grid-point bounds. -/
def validate_bounds (g : Field) (p : Plane) : Except PropError Unit :=
  let tb1 := boundsGP p.m p.d1 p.o1
  let tb2 := boundsGP p.n p.d2 p.o2
  let pb1 := boundsGP g.m g.d1 g.o1
  let pb2 := boundsGP g.n g.d2 g.o2
  if tb1.1 < pb1.1 ∨ tb1.2 > pb1.2 ∨ tb2.1 < pb2.1 ∨ tb2.2 > pb2.2 then
    .error .boundsError
  else
    .ok ()

/-- The field returned by `field.copy(data=propagated_data, z=propagation_plane.z)`
inside `asm_propagation`: spacing, offset, wavelength, pad factors and method
are kept, the shape grows to the padded data's shape, `z` moves to the target. -/
def propagated_field (f : Field) (p : Plane) : Field :=
  { f with
    m := f.m + 2 * (f.p1 * f.m)
    n := f.n + 2 * (f.p2 * f.n)
    data := apply_transfer_function (tfVal f (p.z - f.z)) f
    z := p.z }

/-- Embedding of `asm_propagation`: compute the transfer function (raising the
NaN error first), apply it, rebuild the field via `field.copy(data=..., z=...)`,
then validate bounds. -/
def asm_propagation (f : Field) (p : Plane) : Except PropError Field := do
  let dist := p.z - f.z
  let tf ← calculate_transfer_function f dist
  let propagated_data := apply_transfer_function tf f
  let g : Field :=
    { f with
      m := f.m + 2 * (f.p1 * f.m)
      n := f.n + 2 * (f.p2 * f.n)
      data := propagated_data
      z := p.z }
  let _ ← validate_bounds g p
  pure g

/-! ### Spec-side transfer-function formulas (for claim C2) -/

/-- The wavenumber of the spec's step 3: `k = 2*pi / wavelength`. -/
def spec_wavenumber (lam : ℝ) : ℝ := 2 * π / lam

/-- The spec's Fresnel-approximated kernel:
`H = exp(i*k*dz) * exp(-i*wavelength*dz*(kx^2+ky^2)/(4*pi))`. -/
def spec_fresnel_tf (lam dz kx ky : ℝ) : ℂ :=
  Complex.exp (Complex.I * (spec_wavenumber lam : ℝ) * dz) *
    Complex.exp (-Complex.I * lam * dz * ((kx ^ 2 + ky ^ 2 : ℝ)) / (4 * (π : ℂ)))

/-- Helper: unpacking a successful `calculate_transfer_function` call. -/
theorem calculate_tf_ok {f : Field} {dist : ℝ} {tf : ℕ → ℕ → ℂ}
    (hok : calculate_transfer_function f dist = .ok tf) :
    tf = tfVal f dist ∧
      ∀ i < padded_shape1 f, ∀ j < padded_shape2 f, 0 ≤ kzArg f i j := by
  by_cases h : ∃ i < padded_shape1 f, ∃ j < padded_shape2 f, kzArg f i j < 0
  · rw [calculate_transfer_function, if_pos h] at hok
    exact absurd hok (by simp)
  · rw [calculate_transfer_function, if_neg h] at hok
    push_neg at h
    exact ⟨(Except.ok.injEq _ _).mp hok |>.symm, fun i hi j hj => h i hi j hj⟩

/-- C2: for every field and target plane with a successfully computed transfer
function (`dz = target_z - field.z`), the transfer-function sample at every
padded-grid index `(i, j)` — whose spatial frequencies are
`kx = 2*pi*freq_x[i]`, `ky = 2*pi*freq_y[j]` — equals the Fresnel kernel
`exp(i*k*dz) * exp(-i*wavelength*dz*(kx^2+ky^2)/(4*pi))` on the
`ASM_FRESNEL` / `AUTO_FRESNEL` branch, and otherwise equals `exp(i*kz*dz)`
where `kz` is the non-negative square root of `k^2 - kx^2 - ky^2` and
`k = 2*pi/wavelength`. -/
theorem asm_transfer_function_formulas (f : Field) (p : Plane) (tf : ℕ → ℕ → ℂ)
    (hok : calculate_transfer_function f (p.z - f.z) = .ok tf)
    (i j : ℕ) (hi : i < padded_shape1 f) (hj : j < padded_shape2 f) :
    (isFresnel f →
      tf i j = spec_fresnel_tf f.wavelength (p.z - f.z) (kxVal f i) (kyVal f j)) ∧
    (¬ isFresnel f →
      ∃ kz : ℝ, 0 ≤ kz ∧
        kz ^ 2 = spec_wavenumber f.wavelength ^ 2 - kxVal f i ^ 2 - kyVal f j ^ 2 ∧
        tf i j = Complex.exp (Complex.I * kz * (p.z - f.z))) := by
  obtain ⟨htf, hnn⟩ := calculate_tf_ok hok
  subst htf
  constructor
  · intro hF
    rw [tfVal, if_pos hF, spec_fresnel_tf, spec_wavenumber, kVal]
    push_cast
    ring_nf
  · intro hF
    refine ⟨kzVal f i j, Real.sqrt_nonneg _, ?_, ?_⟩
    · rw [kzVal, Real.sq_sqrt (hnn i hi j hj), kzArg, kVal, spec_wavenumber]
    · rw [tfVal, if_neg hF]
      push_cast
      ring_nf

/-- Witness for C2: a concrete 1-by-1 field (spacing 1, wavelength 1/2,
method `"ASM"`) whose single padded-grid radicand `8*pi^2` is non-negative,
so the transfer function is computed and matches the Rayleigh–Sommerfeld
formula. -/
def witness_field_ok : Field where
  m := 1
  n := 1
  data := fun _ _ => 1
  wavelength := 1 / 2
  z := 0
  d1 := 1
  d2 := 1
  o1 := 0
  o2 := 0
  p1 := 0
  p2 := 0
  propagation_method := "ASM"

/-- Witness target plane: the same 1-by-1 geometry moved to `z = 1`. -/
def witness_plane : Plane where
  m := 1
  n := 1
  z := 1
  d1 := 1
  d2 := 1
  o1 := 0
  o2 := 0

/-- Helper: the padded shape of the witness field is 1 in both axes. -/
theorem witness_padded_shape :
    padded_shape1 witness_field_ok = 1 ∧ padded_shape2 witness_field_ok = 1 := by
  constructor <;> rfl

/-- Helper: the single radicand sample of the witness field is `8*pi^2 ≥ 0`:
`k = 4*pi` while `kx = ky = -2*pi` (the frequency axis of a length-1 grid is
the single — due to the `fftfreq_grad` off-by-one — sample `-1`). -/
theorem witness_kzArg_nonneg :
    ∀ i < padded_shape1 witness_field_ok, ∀ j < padded_shape2 witness_field_ok,
      0 ≤ kzArg witness_field_ok i j := by
  intro i hi j hj
  have hp1 : padded_shape1 witness_field_ok = 1 := rfl
  have hp2 : padded_shape2 witness_field_ok = 1 := rfl
  rw [hp1] at hi
  rw [hp2] at hj
  have hi0 : i = 0 := by omega
  have hj0 : j = 0 := by omega
  subst hi0
  subst hj0
  have h : kzArg witness_field_ok 0 0 = (4 * π) ^ 2 - (-2 * π) ^ 2 - (-2 * π) ^ 2 := by
    rw [kzArg, kVal, kxVal, kyVal]
    norm_num [asm_freq_axis, fftshift1, fftfreq_grad, witness_field_ok,
      padded_shape1, padded_shape2]
    ring
  rw [h]
  nlinarith [Real.pi_pos]

/-- Helper: `calculate_transfer_function` succeeds on the witness field. -/
theorem witness_calculate_tf_ok :
    calculate_transfer_function witness_field_ok (witness_plane.z - witness_field_ok.z)
      = .ok (tfVal witness_field_ok (witness_plane.z - witness_field_ok.z)) := by
  rw [calculate_transfer_function, if_neg]
  push_neg
  intro i hi j hj
  exact witness_kzArg_nonneg i hi j hj

/-- Witness for C2: the transfer-function formula theorem instantiated at the
concrete witness field and plane and grid index `(0, 0)`. -/
theorem asm_transfer_function_formulas_witness :
    (¬ isFresnel witness_field_ok) ∧
    (∃ kz : ℝ, 0 ≤ kz ∧
      kz ^ 2 = spec_wavenumber witness_field_ok.wavelength ^ 2 -
        kxVal witness_field_ok 0 ^ 2 - kyVal witness_field_ok 0 ^ 2 ∧
      tfVal witness_field_ok (witness_plane.z - witness_field_ok.z) 0 0 =
        Complex.exp (Complex.I * kz * (witness_plane.z - witness_field_ok.z))) := by
  have hni : ¬ isFresnel witness_field_ok := by
    rw [isFresnel]
    simp [witness_field_ok]
  exact ⟨hni,
    (asm_transfer_function_formulas witness_field_ok witness_plane _
      witness_calculate_tf_ok 0 0 (by norm_num [padded_shape1, witness_field_ok])
      (by norm_num [padded_shape2, witness_field_ok])).2 hni⟩

/-- Helper: `validate_bounds` returns either the bounds error or unit. -/
theorem validate_bounds_cases (g : Field) (p : Plane) :
    validate_bounds g p = .error .boundsError ∨ validate_bounds g p = .ok () := by
  rw [validate_bounds]
  split
  · exact Or.inl rfl
  · exact Or.inr rfl

/-- Helper: mapping a field constructor over a `validate_bounds` result can
produce the bounds error or a field, never the NaN error. -/
theorem map_validate_ne_nan (g g' : Field) (p : Plane) :
    ((fun _ : Unit => g') <$> validate_bounds g p) ≠ Except.error PropError.nanKz := by
  rcases validate_bounds_cases g p with hv | hv <;> rw [hv] <;> simp [Except.map]

/-- Helper: a negative radicand at some padded-grid index makes
`asm_propagation` fail with the NaN error (the check precedes every other
step of the propagation). -/
theorem asm_error_of_evanescent (f : Field) (p : Plane)
    (h : ∃ i < padded_shape1 f, ∃ j < padded_shape2 f, kzArg f i j < 0) :
    asm_propagation f p = .error .nanKz := by
  rw [asm_propagation, calculate_transfer_function, if_pos h]
  rfl

/-- Helper: with all radicands non-negative, `asm_propagation` never raises
the NaN error (it either succeeds or raises the bounds error). -/
theorem asm_ne_nan_of_nonneg (f : Field) (p : Plane)
    (h : ∀ i < padded_shape1 f, ∀ j < padded_shape2 f, 0 ≤ kzArg f i j) :
    asm_propagation f p ≠ .error .nanKz := by
  have hne : ¬ ∃ i < padded_shape1 f, ∃ j < padded_shape2 f, kzArg f i j < 0 := by
    push_neg
    exact fun i hi j hj => h i hi j hj
  rw [asm_propagation, calculate_transfer_function, if_neg hne]
  exact map_validate_ne_nan _ _ _

/-- Helper: the modulus of `exp(I * r)` is 1 for real `r`. -/
theorem abs_exp_I_mul_real (r : ℝ) :
    Complex.abs (Complex.exp (Complex.I * (r : ℂ))) = 1 := by
  rw [Complex.abs_exp]
  simp

/-- C5: if the radicand `k^2 - kx^2 - ky^2` is negative at any padded-grid
frequency sample then `asm_propagation` fails with the NaN error before any
output field is produced; if it is non-negative everywhere, that error is
never raised. -/
theorem asm_evanescent_error_handling (f : Field) (p : Plane) :
    ((∃ i < padded_shape1 f, ∃ j < padded_shape2 f, kzArg f i j < 0) →
      asm_propagation f p = .error .nanKz) ∧
    ((∀ i < padded_shape1 f, ∀ j < padded_shape2 f, 0 ≤ kzArg f i j) →
      asm_propagation f p ≠ .error .nanKz) :=
  ⟨asm_error_of_evanescent f p, asm_ne_nan_of_nonneg f p⟩

/-- A concrete evanescent 1-by-1 field: with wavelength 1 and spacing 1 the
single radicand sample is `4*pi^2 - 4*pi^2 - 4*pi^2 < 0`. -/
def witness_field_evan : Field := { witness_field_ok with wavelength := 1 }

/-- Helper: the single radicand sample of the evanescent witness is negative. -/
theorem witness_evan_kzArg_neg :
    ∃ i < padded_shape1 witness_field_evan, ∃ j < padded_shape2 witness_field_evan,
      kzArg witness_field_evan i j < 0 := by
  refine ⟨0, by norm_num [padded_shape1, witness_field_evan, witness_field_ok], 0,
    by norm_num [padded_shape2, witness_field_evan, witness_field_ok], ?_⟩
  have h : kzArg witness_field_evan 0 0 =
      (2 * π) ^ 2 - (-2 * π) ^ 2 - (-2 * π) ^ 2 := by
    rw [kzArg, kVal, kxVal, kyVal]
    norm_num [asm_freq_axis, fftshift1, fftfreq_grad, witness_field_evan,
      witness_field_ok, padded_shape1, padded_shape2]
  rw [h]
  nlinarith [Real.pi_pos]

/-- Witness for C5: the evanescent witness field errors with the NaN error,
while the non-evanescent witness field does not. -/
theorem asm_evanescent_error_handling_witness :
    asm_propagation witness_field_evan witness_plane = .error .nanKz ∧
      asm_propagation witness_field_ok witness_plane ≠ .error .nanKz :=
  ⟨(asm_evanescent_error_handling witness_field_evan witness_plane).1
      witness_evan_kzArg_neg,
    (asm_evanescent_error_handling witness_field_ok witness_plane).2
      witness_kzArg_nonneg⟩

/-- C10: the NaN check runs before the method branch, so a field propagated
with method `ASM_FRESNEL` or `AUTO_FRESNEL` still fails with the NaN error
whenever the radicand is negative somewhere — even though the Fresnel
transfer function itself is well defined (unit modulus) at every frequency
sample. -/
theorem asm_fresnel_evanescent_error (f : Field) (p : Plane)
    (hm : isFresnel f)
    (hneg : ∃ i < padded_shape1 f, ∃ j < padded_shape2 f, kzArg f i j < 0) :
    asm_propagation f p = .error .nanKz ∧
      ∀ i j, Complex.abs (tfVal f (p.z - f.z) i j) = 1 := by
  refine ⟨asm_error_of_evanescent f p hneg, fun i j => ?_⟩
  rw [tfVal, if_pos hm, map_mul]
  have e1 : Complex.I * ((kVal f : ℝ) : ℂ) * (((p.z - f.z) : ℝ) : ℂ) =
      Complex.I * ((kVal f * (p.z - f.z) : ℝ) : ℂ) := by
    push_cast
    ring
  have e2 : -Complex.I * ((f.wavelength : ℝ) : ℂ) * (((p.z - f.z) : ℝ) : ℂ) *
        (((kxVal f i : ℝ) : ℂ) ^ 2 + ((kyVal f j : ℝ) : ℂ) ^ 2) / (4 * (π : ℂ)) =
      Complex.I * ((-(f.wavelength * (p.z - f.z) *
        ((kxVal f i) ^ 2 + (kyVal f j) ^ 2) / (4 * π)) : ℝ) : ℂ) := by
    push_cast
    ring
  rw [e1, e2, abs_exp_I_mul_real, abs_exp_I_mul_real, mul_one]

/-- A concrete evanescent 1-by-1 field using the Fresnel method string. -/
def witness_field_fresnel : Field :=
  { witness_field_ok with wavelength := 1, propagation_method := "ASM_FRESNEL" }

/-- Helper: the single radicand sample of the Fresnel witness is negative. -/
theorem witness_fresnel_kzArg_neg :
    ∃ i < padded_shape1 witness_field_fresnel,
      ∃ j < padded_shape2 witness_field_fresnel,
        kzArg witness_field_fresnel i j < 0 := by
  refine ⟨0, by norm_num [padded_shape1, witness_field_fresnel, witness_field_ok], 0,
    by norm_num [padded_shape2, witness_field_fresnel, witness_field_ok], ?_⟩
  have h : kzArg witness_field_fresnel 0 0 =
      (2 * π) ^ 2 - (-2 * π) ^ 2 - (-2 * π) ^ 2 := by
    rw [kzArg, kVal, kxVal, kyVal]
    norm_num [asm_freq_axis, fftshift1, fftfreq_grad, witness_field_fresnel,
      witness_field_ok, padded_shape1, padded_shape2]
  rw [h]
  nlinarith [Real.pi_pos]

/-- Witness for C10: the Fresnel-method evanescent field errors with the NaN
error, and its transfer function at index `(0,0)` nevertheless has modulus 1. -/
theorem asm_fresnel_evanescent_error_witness :
    asm_propagation witness_field_fresnel witness_plane = .error .nanKz ∧
      Complex.abs (tfVal witness_field_fresnel
        (witness_plane.z - witness_field_fresnel.z) 0 0) = 1 := by
  have hm : isFresnel witness_field_fresnel := Or.inl rfl
  obtain ⟨h1, h2⟩ := asm_fresnel_evanescent_error witness_field_fresnel witness_plane
    hm witness_fresnel_kzArg_neg
  exact ⟨h1, h2 0 0⟩

/-! ### Claim C1: padding invariance of the ASM propagator -/

/-- The manually pre-padded field of the padding-invariance property: the
data is zero-padded by `asm_pad_factor[i] * shape[i]` samples per side (the
construction of `test_field_asm_pad_factor`), spacing, offset, wavelength,
`z` and method are unchanged, and the pad factor is reset to `(0, 0)`. -/
def prepad (f : Field) : Field :=
  { f with
    m := f.m + 2 * (f.p1 * f.m)
    n := f.n + 2 * (f.p2 * f.n)
    data := zero_pad f.m f.n (f.p1 * f.m) (f.p2 * f.n) f.data
    p1 := 0
    p2 := 0 }

/-- The externally observable content of a propagated field: shape, data,
wavelength, `z`, spacing and offset (everything except the bookkeeping pad
factors and method string carried along by `copy`). -/
def Field.observable (f : Field) :
    ℕ × ℕ × (ℕ → ℕ → ℂ) × ℝ × ℝ × ℝ × ℝ × ℝ × ℝ :=
  (f.m, f.n, f.data, f.wavelength, f.z, f.d1, f.d2, f.o1, f.o2)

/-- Helper: `fft2` only reads its input inside the `M × N` index box. -/
theorem fft2_congr {M N : ℕ} {x y : ℕ → ℕ → ℂ}
    (h : ∀ a < M, ∀ b < N, x a b = y a b) : fft2 M N x = fft2 M N y := by
  funext u v
  rw [fft2, fft2]
  refine Finset.sum_congr rfl fun a ha => Finset.sum_congr rfl fun b hb => ?_
  rw [h a (mem_range.mp ha) b (mem_range.mp hb)]

/-- Helper: a zero-sample pad leaves in-box samples unchanged. -/
theorem zero_pad_of_zero {M N px py : ℕ} (hpx : px = 0) (hpy : py = 0)
    (x : ℕ → ℕ → ℂ) {i j : ℕ} (hi : i < M) (hj : j < N) :
    zero_pad M N px py x i j = x i j := by
  subst hpx
  subst hpy
  simp [zero_pad, hi, hj]

/-- Helper: `asm_propagation` in the no-NaN case is `validate_bounds`
followed by the copied field. -/
theorem asm_propagation_of_no_nan (f : Field) (p : Plane)
    (h : ¬ ∃ i < padded_shape1 f, ∃ j < padded_shape2 f, kzArg f i j < 0) :
    asm_propagation f p =
      (fun _ : Unit => propagated_field f p) <$>
        validate_bounds (propagated_field f p) p := by
  rw [asm_propagation, calculate_transfer_function, if_neg h]
  rfl

/-- Helper: two fields that agree on spacing, offset, wavelength, `z`, method,
padded sizes and padded data propagate to observably equal results. -/
theorem asm_congr (g f : Field) (p : Plane)
    (hm : g.m + 2 * (g.p1 * g.m) = f.m + 2 * (f.p1 * f.m))
    (hn : g.n + 2 * (g.p2 * g.n) = f.n + 2 * (f.p2 * f.n))
    (hps1 : padded_shape1 g = padded_shape1 f)
    (hps2 : padded_shape2 g = padded_shape2 f)
    (hd1 : g.d1 = f.d1) (hd2 : g.d2 = f.d2)
    (hlam : g.wavelength = f.wavelength) (hz : g.z = f.z)
    (ho1 : g.o1 = f.o1) (ho2 : g.o2 = f.o2)
    (hmeth : g.propagation_method = f.propagation_method)
    (hdata : ∀ i < f.m + 2 * (f.p1 * f.m), ∀ j < f.n + 2 * (f.p2 * f.n),
      zero_pad g.m g.n (g.p1 * g.m) (g.p2 * g.n) g.data i j =
        zero_pad f.m f.n (f.p1 * f.m) (f.p2 * f.n) f.data i j) :
    (asm_propagation g p).map Field.observable =
      (asm_propagation f p).map Field.observable := by
  have hk : kVal g = kVal f := by rw [kVal, kVal, hlam]
  have hkx : ∀ i, kxVal g i = kxVal f i := by
    intro i
    rw [kxVal, kxVal, hps1, hd1]
  have hky : ∀ j, kyVal g j = kyVal f j := by
    intro j
    rw [kyVal, kyVal, hps2, hd2]
  have hkzArg : ∀ i j, kzArg g i j = kzArg f i j := by
    intro i j
    rw [kzArg, kzArg, hk, hkx, hky]
  have htf : ∀ dist, tfVal g dist = tfVal f dist := by
    intro dist
    funext i j
    have hF : isFresnel g ↔ isFresnel f := by rw [isFresnel, isFresnel, hmeth]
    by_cases h : isFresnel f
    · rw [tfVal, tfVal, if_pos (hF.mpr h), if_pos h, hk, hkx, hky, hlam]
    · rw [tfVal, tfVal, if_neg (hF.mp.mt h), if_neg h, kzVal, kzVal, hkzArg]
  have happly : ∀ T, apply_transfer_function T g = apply_transfer_function T f := by
    intro T
    have hfft :
        fft2 (f.m + 2 * (f.p1 * f.m)) (f.n + 2 * (f.p2 * f.n))
            (zero_pad g.m g.n (g.p1 * g.m) (g.p2 * g.n) g.data) =
          fft2 (f.m + 2 * (f.p1 * f.m)) (f.n + 2 * (f.p2 * f.n))
            (zero_pad f.m f.n (f.p1 * f.m) (f.p2 * f.n) f.data) :=
      fft2_congr hdata
    rw [apply_transfer_function, apply_transfer_function, hm, hn, hfft]
  have hcond : (∃ i < padded_shape1 g, ∃ j < padded_shape2 g, kzArg g i j < 0) ↔
      (∃ i < padded_shape1 f, ∃ j < padded_shape2 f, kzArg f i j < 0) := by
    rw [hps1, hps2]
    simp only [hkzArg]
  have hprop : Field.observable (propagated_field g p) =
      Field.observable (propagated_field f p) := by
    rw [Field.observable, Field.observable]
    simp only [propagated_field]
    rw [hm, hn, hd1, hd2, hlam, ho1, ho2, htf, happly, hz]
  have hval : validate_bounds (propagated_field g p) p =
      validate_bounds (propagated_field f p) p := by
    rw [validate_bounds, validate_bounds]
    simp only [propagated_field, hm, hn, hd1, hd2, ho1, ho2]
  by_cases hc : ∃ i < padded_shape1 f, ∃ j < padded_shape2 f, kzArg f i j < 0
  · rw [asm_error_of_evanescent g p (hcond.mpr hc), asm_error_of_evanescent f p hc]
  · rw [asm_propagation_of_no_nan g p (fun hgc => hc (hcond.mp hgc)),
      asm_propagation_of_no_nan f p hc]
    rcases validate_bounds_cases (propagated_field f p) p with hv | hv <;>
      rw [hval, hv] <;> simp [Except.map, hprop]

/-- C1: propagating a field with pad factor `P` through the ASM kernel gives
the same output (same data, geometry, wavelength, and the same error
behaviour) as propagating the manually pre-zero-padded field with pad factor
`0` to the same target plane. -/
theorem asm_padding_invariance (f : Field) (p : Plane) :
    (asm_propagation f p).map Field.observable =
      (asm_propagation (prepad f) p).map Field.observable := by
  refine (asm_congr (prepad f) f p ?_ ?_ ?_ ?_ rfl rfl rfl rfl rfl rfl rfl ?_).symm
  · simp [prepad]
  · simp [prepad]
  · rw [padded_shape1, padded_shape1]
    simp [prepad]
    ring
  · rw [padded_shape2, padded_shape2]
    simp [prepad]
    ring
  · intro i hi j hj
    have hpre : (prepad f).p1 = 0 ∧ (prepad f).p2 = 0 ∧
        (prepad f).m = f.m + 2 * (f.p1 * f.m) ∧
        (prepad f).n = f.n + 2 * (f.p2 * f.n) := ⟨rfl, rfl, rfl, rfl⟩
    rw [zero_pad_of_zero (by rw [hpre.1]; ring) (by rw [hpre.2.1]; ring)
      (prepad f).data (hpre.2.2.1.symm ▸ hi) (hpre.2.2.2.symm ▸ hj)]
    rfl

/-! ### Claim C4: energy conservation under zero-pad ASM propagation

The pipeline `ifft2 ∘ ifftshift ∘ (pointwise * H) ∘ fftshift ∘ fft2` preserves
the sum of squared moduli whenever `|H| = 1` on the grid (discrete Parseval
identity plus invariance of sums under the index rolls). -/

/-- The total power of a field (`Field.power`):
`intensity().sum((-1,-2)) * cell_area()` with `intensity = |data|^2`. -/
def Field.power (f : Field) : ℝ :=
  (∑ i ∈ range f.m, ∑ j ∈ range f.n, Complex.abs (f.data i j) ^ 2) *
    (f.d1 * f.d2)

/-- The 1D DFT kernel `exp(-2*pi*I*u*a/M)`. -/
def dftK (M u a : ℕ) : ℂ :=
  Complex.exp (-(2 * (π : ℂ) * Complex.I) * ((u : ℂ) * a / M))

/-- Helper: conjugating the DFT kernel flips the sign of the phase. -/
theorem dftK_conj (M u a : ℕ) :
    (starRingEnd ℂ) (dftK M u a) =
      Complex.exp ((2 * (π : ℂ) * Complex.I) * ((u : ℂ) * a / M)) := by
  rw [dftK, ← Complex.exp_conj]
  congr 1
  simp only [map_mul, map_neg, map_div₀, Complex.conj_I, Complex.conj_ofReal,
    map_ofNat, Complex.conj_natCast]
  ring

/-- Helper: orthogonality of the DFT kernels over one period. -/
theorem dft_orthogonality (M : ℕ) (hM : 0 < M) (a c : ℕ) (ha : a < M) (hc : c < M) :
    ∑ u ∈ range M, dftK M u a * (starRingEnd ℂ) (dftK M u c) =
      if a = c then (M : ℂ) else 0 := by
  have hterm : ∀ u : ℕ, dftK M u a * (starRingEnd ℂ) (dftK M u c) =
      Complex.exp ((2 * (π : ℂ) * Complex.I) * (((c : ℂ) - a) / M)) ^ u := by
    intro u
    rw [dftK_conj, dftK, ← Complex.exp_add, ← Complex.exp_nat_mul]
    congr 1
    have hMne : (M : ℂ) ≠ 0 := Nat.cast_ne_zero.mpr hM.ne'
    field_simp
    ring
  simp only [hterm]
  by_cases hac : a = c
  · subst hac
    have h1 : ((a : ℂ) - a) = 0 := by ring
    simp [h1]
  · have hω : Complex.exp ((2 * (π : ℂ) * Complex.I) * (((c : ℂ) - a) / M)) ≠ 1 := by
      intro h1
      rw [Complex.exp_eq_one_iff] at h1
      obtain ⟨n, hn⟩ := h1
      have hpi : (2 * (π : ℂ) * Complex.I) ≠ 0 := by
        simp [Real.pi_ne_zero, Complex.I_ne_zero]
      have hMne : (M : ℂ) ≠ 0 := Nat.cast_ne_zero.mpr hM.ne'
      have h2 : ((c : ℂ) - a) = n * M := by
        field_simp at hn
        have h3 : (2 * (π : ℂ) * Complex.I) * ((c : ℂ) - a) =
            (2 * (π : ℂ) * Complex.I) * (n * M) := by linear_combination hn
        exact mul_left_cancel₀ hpi h3
      have h4 : ((c : ℝ) - a) = n * M := by
        have := congrArg Complex.re h2
        push_cast at this ⊢
        simpa using this
      have h5 : (c : ℤ) - a = n * M := by exact_mod_cast h4
      rcases lt_trichotomy n 0 with hn0 | hn0 | hn0
      · have hle : (n : ℤ) * M ≤ -M := by
          have h6 : (n : ℤ) ≤ -1 := by omega
          nlinarith [Int.ofNat_pos.mpr hM]
        omega
      · subst hn0
        simp at h5
        omega
      · have hge : (M : ℤ) ≤ n * M := by
          have h6 : (1 : ℤ) ≤ n := by omega
          nlinarith [Int.ofNat_pos.mpr hM]
        omega
    rw [geom_sum_eq hω]
    have hωM : Complex.exp ((2 * (π : ℂ) * Complex.I) * (((c : ℂ) - a) / M)) ^ M = 1 := by
      rw [← Complex.exp_nat_mul]
      have hMne : (M : ℂ) ≠ 0 := Nat.cast_ne_zero.mpr hM.ne'
      have harg : (M : ℂ) * ((2 * (π : ℂ) * Complex.I) * (((c : ℂ) - a) / M)) =
          (((c : ℤ) - a : ℤ) : ℂ) * (2 * (π : ℂ) * Complex.I) := by
        field_simp
        ring
      rw [harg, Complex.exp_int_mul_two_pi_mul_I]
    rw [hωM]
    simp [hac]

/-- Helper: a sum over one period is invariant under an index roll. -/
theorem sum_range_shift_mod {β : Type} [AddCommMonoid β] (M k : ℕ) (hM : 0 < M)
    (h : ℕ → β) : ∑ i ∈ range M, h ((i + k) % M) = ∑ i ∈ range M, h i := by
  have h3 : M * (1 + k / M) = M + M * (k / M) := by ring
  have hk : M - k % M + k = M + M * (k / M) := by
    have h1 : M * (k / M) + k % M = k := Nat.div_add_mod k M
    have h2 : k % M ≤ M := le_of_lt (Nat.mod_lt _ hM)
    omega
  refine Finset.sum_nbij' (fun i => (i + k) % M) (fun i => (i + (M - k % M)) % M)
    ?_ ?_ ?_ ?_ ?_
  · intro a ha
    exact mem_range.mpr (Nat.mod_lt _ hM)
  · intro a ha
    exact mem_range.mpr (Nat.mod_lt _ hM)
  · intro a ha
    show ((a + k) % M + (M - k % M)) % M = a
    rw [Nat.mod_add_mod]
    have he : a + k + (M - k % M) = a + M * (1 + k / M) := by omega
    rw [he, Nat.add_mul_mod_self_left, Nat.mod_eq_of_lt (mem_range.mp ha)]
  · intro a ha
    show ((a + (M - k % M)) % M + k) % M = a
    rw [Nat.mod_add_mod]
    have he : a + (M - k % M) + k = a + M * (1 + k / M) := by omega
    rw [he, Nat.add_mul_mod_self_left, Nat.mod_eq_of_lt (mem_range.mp ha)]
  · intro a ha
    rfl

/-- Helper: a double sum over the grid is invariant under rolls of both axes. -/
theorem sum_shift2 {β : Type} [AddCommMonoid β] (M N k l : ℕ) (hM : 0 < M)
    (hN : 0 < N) (h : ℕ → ℕ → β) :
    ∑ u ∈ range M, ∑ v ∈ range N, h ((u + k) % M) ((v + l) % N) =
      ∑ u ∈ range M, ∑ v ∈ range N, h u v := by
  have h1 : ∀ u, ∑ v ∈ range N, h ((u + k) % M) ((v + l) % N) =
      ∑ v ∈ range N, h ((u + k) % M) v := fun u =>
    sum_range_shift_mod N l hN (h ((u + k) % M))
  simp only [h1]
  exact sum_range_shift_mod M k hM (fun u => ∑ v ∈ range N, h u v)

/-- Helper: 1D Parseval identity in its sesquilinear form. -/
theorem dft1_parseval_c (M : ℕ) (hM : 0 < M) (y : ℕ → ℂ) :
    ∑ u ∈ range M, (∑ a ∈ range M, y a * dftK M u a) *
        (starRingEnd ℂ) (∑ c ∈ range M, y c * dftK M u c) =
      (M : ℂ) * ∑ a ∈ range M, y a * (starRingEnd ℂ) (y a) := by
  have h1 : ∀ u, (∑ a ∈ range M, y a * dftK M u a) *
      (starRingEnd ℂ) (∑ c ∈ range M, y c * dftK M u c) =
      ∑ a ∈ range M, ∑ c ∈ range M,
        y a * (starRingEnd ℂ) (y c) * (dftK M u a * (starRingEnd ℂ) (dftK M u c)) := by
    intro u
    rw [map_sum, Finset.sum_mul_sum]
    refine Finset.sum_congr rfl fun a _ => Finset.sum_congr rfl fun c _ => ?_
    rw [map_mul]
    ring
  simp only [h1]
  rw [Finset.sum_comm]
  have h2 : ∀ a ∈ range M, ∑ u ∈ range M, ∑ c ∈ range M,
      y a * (starRingEnd ℂ) (y c) * (dftK M u a * (starRingEnd ℂ) (dftK M u c)) =
      (M : ℂ) * (y a * (starRingEnd ℂ) (y a)) := by
    intro a ha
    rw [Finset.sum_comm]
    have h3 : ∀ c ∈ range M, ∑ u ∈ range M,
        y a * (starRingEnd ℂ) (y c) * (dftK M u a * (starRingEnd ℂ) (dftK M u c)) =
        y a * (starRingEnd ℂ) (y c) * (if a = c then (M : ℂ) else 0) := by
      intro c hc
      rw [← Finset.mul_sum, dft_orthogonality M hM a c (mem_range.mp ha) (mem_range.mp hc)]
    rw [Finset.sum_congr rfl h3]
    simp only [mul_ite, mul_zero]
    rw [Finset.sum_ite_eq (range M) a (fun c => y a * (starRingEnd ℂ) (y c) * M),
      if_pos ha]
    ring
  rw [Finset.sum_congr rfl h2, ← Finset.mul_sum]

/-- Helper: 1D Parseval identity for squared moduli. -/
theorem dft1_parseval (M : ℕ) (hM : 0 < M) (y : ℕ → ℂ) :
    ∑ u ∈ range M, Complex.abs (∑ a ∈ range M, y a * dftK M u a) ^ 2 =
      (M : ℝ) * ∑ a ∈ range M, Complex.abs (y a) ^ 2 := by
  have habs : ∀ z : ℂ, ((Complex.abs z ^ 2 : ℝ) : ℂ) = z * (starRingEnd ℂ) z := by
    intro z
    rw [Complex.sq_abs, Complex.mul_conj]
  have key := dft1_parseval_c M hM y
  apply Complex.ofReal_injective
  push_cast
  calc ∑ u ∈ range M, ((Complex.abs (∑ a ∈ range M, y a * dftK M u a) : ℂ)) ^ 2
      = ∑ u ∈ range M, (∑ a ∈ range M, y a * dftK M u a) *
          (starRingEnd ℂ) (∑ c ∈ range M, y c * dftK M u c) := by
        refine Finset.sum_congr rfl fun u _ => ?_
        rw [← habs]
        push_cast
        rfl
    _ = (M : ℂ) * ∑ a ∈ range M, y a * (starRingEnd ℂ) (y a) := key
    _ = (M : ℂ) * ∑ a ∈ range M, ((Complex.abs (y a) : ℂ)) ^ 2 := by
        congr 1
        refine Finset.sum_congr rfl fun a _ => ?_
        rw [← habs]
        push_cast
        rfl

/-- Helper: the 2D DFT factors as nested 1D DFTs. -/
theorem fft2_eq_dft1 (M N : ℕ) (x : ℕ → ℕ → ℂ) (u v : ℕ) :
    fft2 M N x u v =
      ∑ a ∈ range M, (∑ b ∈ range N, x a b * dftK N v b) * dftK M u a := by
  rw [fft2]
  refine Finset.sum_congr rfl fun a _ => ?_
  rw [Finset.sum_mul]
  refine Finset.sum_congr rfl fun b _ => ?_
  have hsplit : Complex.exp (-(2 * (π : ℂ) * Complex.I) *
        ((u : ℂ) * a / M + (v : ℂ) * b / N)) =
      Complex.exp (-(2 * (π : ℂ) * Complex.I) * ((v : ℂ) * b / N)) *
        Complex.exp (-(2 * (π : ℂ) * Complex.I) * ((u : ℂ) * a / M)) := by
    rw [← Complex.exp_add]
    congr 1
    ring
  rw [dftK, dftK, hsplit, ← mul_assoc]

/-- Helper: 2D Parseval identity for the forward transform. -/
theorem fft2_parseval (M N : ℕ) (hM : 0 < M) (hN : 0 < N) (x : ℕ → ℕ → ℂ) :
    ∑ u ∈ range M, ∑ v ∈ range N, Complex.abs (fft2 M N x u v) ^ 2 =
      ((M : ℝ) * N) * ∑ a ∈ range M, ∑ b ∈ range N, Complex.abs (x a b) ^ 2 := by
  have hrow : ∀ v, ∑ u ∈ range M, Complex.abs (fft2 M N x u v) ^ 2 =
      (M : ℝ) * ∑ a ∈ range M,
        Complex.abs (∑ b ∈ range N, x a b * dftK N v b) ^ 2 := by
    intro v
    have h1 : ∀ u, fft2 M N x u v =
        ∑ a ∈ range M, (fun a => ∑ b ∈ range N, x a b * dftK N v b) a * dftK M u a :=
      fun u => fft2_eq_dft1 M N x u v
    simp only [h1]
    exact dft1_parseval M hM (fun a => ∑ b ∈ range N, x a b * dftK N v b)
  rw [Finset.sum_comm]
  rw [Finset.sum_congr rfl fun v _ => hrow v, ← Finset.mul_sum, Finset.sum_comm]
  rw [Finset.sum_congr rfl fun a _ => dft1_parseval N hN (fun b => x a b),
    ← Finset.mul_sum, ← mul_assoc]

/-- Helper: the inverse transform is the scaled conjugate of the forward
transform of the conjugated input. -/
theorem ifft2_eq_conj_fft2 (M N : ℕ) (y : ℕ → ℕ → ℂ) (a b : ℕ) :
    ifft2 M N y a b =
      (1 / ((M : ℂ) * N)) *
        (starRingEnd ℂ) (fft2 M N (fun u v => (starRingEnd ℂ) (y u v)) a b) := by
  rw [ifft2, fft2]
  congr 1
  rw [map_sum]
  refine Finset.sum_congr rfl fun u _ => ?_
  rw [map_sum]
  refine Finset.sum_congr rfl fun v _ => ?_
  rw [map_mul, Complex.conj_conj, ← Complex.exp_conj]
  congr 1
  simp only [map_mul, map_neg, map_add, map_div₀, Complex.conj_I,
    Complex.conj_ofReal, map_ofNat, Complex.conj_natCast]
  ring_nf

/-- Helper: Parseval identity for the inverse transform. -/
theorem ifft2_parseval (M N : ℕ) (hM : 0 < M) (hN : 0 < N) (y : ℕ → ℕ → ℂ) :
    ∑ a ∈ range M, ∑ b ∈ range N, Complex.abs (ifft2 M N y a b) ^ 2 =
      (1 / ((M : ℝ) * N)) * ∑ u ∈ range M, ∑ v ∈ range N,
        Complex.abs (y u v) ^ 2 := by
  have hMN : ((M : ℝ) * N) ≠ 0 := by positivity
  have h1 : ∀ a b, Complex.abs (ifft2 M N y a b) ^ 2 =
      (1 / ((M : ℝ) * N)) ^ 2 *
        Complex.abs (fft2 M N (fun u v => (starRingEnd ℂ) (y u v)) a b) ^ 2 := by
    intro a b
    rw [ifft2_eq_conj_fft2, map_mul, Complex.abs_conj]
    have h2 : Complex.abs (1 / ((M : ℂ) * N)) = 1 / ((M : ℝ) * N) := by
      rw [map_div₀, map_one, map_mul, Complex.abs_natCast, Complex.abs_natCast]
    rw [h2, mul_pow]
  simp only [h1, ← Finset.mul_sum]
  rw [fft2_parseval M N hM hN (fun u v => (starRingEnd ℂ) (y u v))]
  have h4 : ∀ u v : ℕ, Complex.abs ((starRingEnd ℂ) (y u v)) ^ 2 =
      Complex.abs (y u v) ^ 2 := by
    intro u v
    rw [Complex.abs_conj]
  simp only [h4]
  field_simp
  ring

/-- Helper: the centred transfer-function pipeline of
`apply_transfer_function` preserves the sum of squared moduli whenever the
transfer function has unit modulus on the grid. -/
theorem pipeline_sum_sq (M N : ℕ) (hM : 0 < M) (hN : 0 < N) (x T : ℕ → ℕ → ℂ)
    (hT : ∀ u < M, ∀ v < N, Complex.abs (T u v) = 1) :
    ∑ i ∈ range M, ∑ j ∈ range N,
        Complex.abs (ifft2 M N (ifftshift2 M N
          (fun u v => fftshift2 M N (fft2 M N x) u v * T u v)) i j) ^ 2 =
      ∑ i ∈ range M, ∑ j ∈ range N, Complex.abs (x i j) ^ 2 := by
  rw [ifft2_parseval M N hM hN]
  have h1 : ∑ u ∈ range M, ∑ v ∈ range N,
      Complex.abs (ifftshift2 M N
        (fun u v => fftshift2 M N (fft2 M N x) u v * T u v) u v) ^ 2 =
      ∑ u ∈ range M, ∑ v ∈ range N,
        Complex.abs (fftshift2 M N (fft2 M N x) u v * T u v) ^ 2 :=
    sum_shift2 M N (M / 2) (N / 2) hM hN
      (fun u v => Complex.abs (fftshift2 M N (fft2 M N x) u v * T u v) ^ 2)
  rw [h1]
  have h2 : ∀ u ∈ range M, ∀ v ∈ range N,
      Complex.abs (fftshift2 M N (fft2 M N x) u v * T u v) ^ 2 =
      Complex.abs (fftshift2 M N (fft2 M N x) u v) ^ 2 := by
    intro u hu v hv
    rw [map_mul, hT u (mem_range.mp hu) v (mem_range.mp hv), mul_one]
  rw [Finset.sum_congr rfl fun u hu => Finset.sum_congr rfl fun v hv => h2 u hu v hv]
  have h3 : ∑ u ∈ range M, ∑ v ∈ range N,
      Complex.abs (fftshift2 M N (fft2 M N x) u v) ^ 2 =
      ∑ u ∈ range M, ∑ v ∈ range N, Complex.abs (fft2 M N x u v) ^ 2 :=
    sum_shift2 M N (M - M / 2) (N - N / 2) hM hN
      (fun u v => Complex.abs (fft2 M N x u v) ^ 2)
  rw [h3, fft2_parseval M N hM hN]
  have hMN : ((M : ℝ) * N) ≠ 0 := by positivity
  rw [one_div, inv_mul_cancel_left₀ hMN]

/-- Helper: a successful `asm_propagation` returns exactly the copied field. -/
theorem asm_ok_inv {f : Field} {p : Plane} {g : Field}
    (hok : asm_propagation f p = .ok g) : g = propagated_field f p := by
  by_cases hc : ∃ i < padded_shape1 f, ∃ j < padded_shape2 f, kzArg f i j < 0
  · rw [asm_error_of_evanescent f p hc] at hok
    exact absurd hok (by simp)
  · rw [asm_propagation_of_no_nan f p hc] at hok
    rcases validate_bounds_cases (propagated_field f p) p with hv | hv <;>
      rw [hv] at hok <;> simp [Except.map] at hok
    exact hok.symm

/-- C4: with zero pad factors, positive shape (including degenerate 1-by-N
and N-by-1 grids), and a transfer function of unit modulus at every
padded-grid sample, a successful `asm_propagation` over any nonzero distance
returns a field whose `power()` equals the input field's `power()` exactly
(exact arithmetic stands in for floating tolerance). -/
theorem asm_power_conservation (f : Field) (p : Plane) (g : Field)
    (hp1 : f.p1 = 0) (hp2 : f.p2 = 0) (hm : 0 < f.m) (hn : 0 < f.n)
    (hdz : p.z - f.z ≠ 0)
    (htf : ∀ i < padded_shape1 f, ∀ j < padded_shape2 f,
      Complex.abs (tfVal f (p.z - f.z) i j) = 1)
    (hok : asm_propagation f p = .ok g) :
    g.power = f.power := by
  have hg := asm_ok_inv hok
  subst hg
  have hM : f.m + 2 * (f.p1 * f.m) = f.m := by rw [hp1]; ring
  have hN : f.n + 2 * (f.p2 * f.n) = f.n := by rw [hp2]; ring
  have hps1 : padded_shape1 f = f.m := by rw [padded_shape1, hp1]; ring
  have hps2 : padded_shape2 f = f.n := by rw [padded_shape2, hp2]; ring
  have hpx : f.p1 * f.m = 0 := by rw [hp1]; ring
  have hpy : f.p2 * f.n = 0 := by rw [hp2]; ring
  rw [Field.power, Field.power]
  simp only [propagated_field]
  rw [hM, hN]
  congr 1
  have hfft : fft2 f.m f.n (zero_pad f.m f.n (f.p1 * f.m) (f.p2 * f.n) f.data) =
      fft2 f.m f.n f.data :=
    fft2_congr fun a ha b hb => zero_pad_of_zero hpx hpy f.data ha hb
  have happ : apply_transfer_function (tfVal f (p.z - f.z)) f =
      ifft2 f.m f.n (ifftshift2 f.m f.n (fun u v =>
        fftshift2 f.m f.n (fft2 f.m f.n f.data) u v *
          tfVal f (p.z - f.z) u v)) := by
    rw [apply_transfer_function, hM, hN, hfft]
  rw [happ]
  exact pipeline_sum_sq f.m f.n hm hn f.data (tfVal f (p.z - f.z))
    (fun u hu v hv => htf u (hps1 ▸ hu) v (hps2 ▸ hv))

/-- Helper: the Rayleigh–Sommerfeld transfer function always has unit
modulus in the exact-real model (its exponent is purely imaginary). -/
theorem abs_tfVal_full (f : Field) (hni : ¬ isFresnel f) (dist : ℝ) (i j : ℕ) :
    Complex.abs (tfVal f dist i j) = 1 := by
  rw [tfVal, if_neg hni]
  have e1 : Complex.I * ((kzVal f i j : ℝ) : ℂ) * ((dist : ℝ) : ℂ) =
      Complex.I * ((kzVal f i j * dist : ℝ) : ℂ) := by
    push_cast
    ring
  rw [e1, abs_exp_I_mul_real]

/-- Helper: `asm_propagation` succeeds on the witness field (the bounds of
the target plane coincide with the propagated field's bounds). -/
theorem witness_asm_ok :
    asm_propagation witness_field_ok witness_plane =
      .ok (propagated_field witness_field_ok witness_plane) := by
  have hne : ¬ ∃ i < padded_shape1 witness_field_ok,
      ∃ j < padded_shape2 witness_field_ok, kzArg witness_field_ok i j < 0 := by
    push_neg
    exact fun i hi j hj => witness_kzArg_nonneg i hi j hj
  rw [asm_propagation_of_no_nan _ _ hne]
  have hv : validate_bounds (propagated_field witness_field_ok witness_plane)
      witness_plane = .ok () := by
    simp [validate_bounds, propagated_field, boundsGP, witness_field_ok,
      witness_plane]
  rw [hv]
  rfl

/-- Witness for C4: the concrete 1-by-1 witness field propagates
successfully over distance 1 and its power is conserved. -/
theorem asm_power_conservation_witness :
    asm_propagation witness_field_ok witness_plane =
      .ok (propagated_field witness_field_ok witness_plane) ∧
    (propagated_field witness_field_ok witness_plane).power =
      witness_field_ok.power := by
  have hni : ¬ isFresnel witness_field_ok := by
    rw [isFresnel]
    simp [witness_field_ok]
  refine ⟨witness_asm_ok, asm_power_conservation witness_field_ok witness_plane _
    rfl rfl ?_ ?_ ?_ ?_ witness_asm_ok⟩
  · norm_num [witness_field_ok]
  · norm_num [witness_field_ok]
  · norm_num [witness_plane, witness_field_ok]
  · exact fun i _ j _ => abs_tfVal_full witness_field_ok hni _ i j

/-! ### Claim C6: internal arithmetic precision

No line of `calculate_transfer_function` / `apply_transfer_function` casts a
tensor to another dtype: `fftfreq_grad` creates its `arange` with
`dtype=d.dtype` (the spacing's dtype), `pad`/`fft2`/`fftshift` keep their
input's dtype, and binary operations follow torch's type promotion (the
result is double precision iff an operand is).  The optics-module tests
confirm registered properties keep the dtype they were given.  The dtype
dataflow of the ASM computation is embedded below. -/

/-- Floating-point precision of a torch dtype: single (`float32`/`complex64`)
or double (`float64`/`complex128`). -/
inductive FPrec where
  | f32 : FPrec
  | f64 : FPrec
deriving DecidableEq

/-- torch type promotion between two precisions: a binary operation returns
double precision iff either operand has it. -/
def promote (a b : FPrec) : FPrec :=
  match a, b with
  | .f32, .f32 => .f32
  | _, _ => .f64

/-- Precision of the transfer-function tensor built by
`calculate_transfer_function`: the frequency axes carry the spacing's
precision (`fftfreq_grad` uses `d.dtype`), `k` carries the wavelength's,
the phase multiplies in the `z`-difference, and `torch.exp(1j * ...)` yields
the complex dtype of the promoted real precision — no cast to double. -/
def transfer_function_prec (spacingP wavelengthP zP : FPrec) : FPrec :=
  promote (promote spacingP wavelengthP) zP

/-- Precision of the complex arithmetic performed by
`apply_transfer_function`: `pad` and `fft2` keep the data's (complex) dtype,
and the multiplication by the transfer function promotes the two sides. -/
def asm_compute_prec (dataP spacingP wavelengthP zP : FPrec) : FPrec :=
  promote dataP (transfer_function_prec spacingP wavelengthP zP)

/-- Counterexample for C6: a field whose data and parameters are all single
precision is processed entirely in single-precision complex arithmetic
(`complex64`), not double — the claimed unconditional double-precision
internal computation does not exist in the code. -/
theorem asm_compute_prec_not_always_double :
    asm_compute_prec .f32 .f32 .f32 .f32 = .f32 ∧ FPrec.f32 ≠ FPrec.f64 := by
  decide

/-- C6 (amended): the ASM computation (padding, FFTs, transfer-function
multiplication) is carried out in the dtype promoted from the field's data
and parameters; it is double precision iff at least one of the data,
spacing, wavelength or `z` tensors is double precision — there is no
internal upcast. -/
theorem asm_compute_prec_promotes (dataP spacingP wavelengthP zP : FPrec) :
    asm_compute_prec dataP spacingP wavelengthP zP = .f64 ↔
      (dataP = .f64 ∨ spacingP = .f64 ∨ wavelengthP = .f64 ∨ zP = .f64) := by
  cases dataP <;> cases spacingP <;> cases wavelengthP <;> cases zP <;> decide

/-! ### Claim C7: `Field.normalize`

`ratio = torch.nan_to_num(normalized_power / self.power()[..., None, None], 0)`
`normalized_data = self.data * ratio.sqrt()`

`torch.nan_to_num(x, 0)` replaces NaN by the given `0` but replaces the
infinities by the largest finite values of the dtype, so a zero-power field
normalised to a nonzero target power gets ratio `fmax`, not `0`.  The float
division and `nan_to_num` are modelled explicitly; `ratio.sqrt()` at a
negative ratio is NaN in torch and modelled by `Real.sqrt`'s junk value `0`
— on either semantics a negative target power never yields `power() = p`. -/

/-- Result of a float division before `nan_to_num`: NaN (`0/0`), signed
infinity (`x/0` with `x ≠ 0`), or a finite real. -/
inductive FVal where
  | nan : FVal
  | posinf : FVal
  | neginf : FVal
  | val : ℝ → FVal

/-- Float division with torch semantics at a zero denominator. -/
def fdiv (x y : ℝ) : FVal :=
  if y = 0 then (if x = 0 then .nan else if 0 < x then .posinf else .neginf)
  else .val (x / y)

/-- `torch.nan_to_num(v, 0)`: NaN becomes `0`, infinities become the largest
finite magnitude `fmax` of the dtype, finite values pass through. -/
def nanToNum (fmax : ℝ) : FVal → ℝ
  | .nan => 0
  | .posinf => fmax
  | .neginf => -fmax
  | .val x => x

/-- The rescaling ratio computed inside `Field.normalize`. -/
def normalizeRatio (fmax : ℝ) (f : Field) (normalized_power : ℝ) : ℝ :=
  nanToNum fmax (fdiv normalized_power f.power)

/-- Embedding of `Field.normalize`: returns the copied field whose data is
the original data scaled by `ratio.sqrt()`. -/
def Field.normalize (fmax : ℝ) (f : Field) (normalized_power : ℝ) : Field :=
  { f with data := fun i j => f.data i j *
      ((Real.sqrt (normalizeRatio fmax f normalized_power) : ℝ) : ℂ) }

/-- The largest finite `float32` value, `(2^24 - 1) * 2^104`. -/
def f32_max : ℝ := (2 ^ 24 - 1) * 2 ^ 104

/-- A concrete all-zero 1-by-1 field. -/
def zero_field : Field := { witness_field_ok with data := fun _ _ => 0 }

/-- Helper: the witness field has unit power. -/
theorem witness_field_power_one : witness_field_ok.power = 1 := by
  rw [Field.power]
  norm_num [witness_field_ok]

/-- Helper: the zero field has zero power. -/
theorem zero_field_power : zero_field.power = 0 := by
  rw [Field.power]
  norm_num [zero_field, witness_field_ok]

/-- Counterexample for C7: on the zero-power field with target power `1` the
rescaling ratio is the largest finite float value, not `0`; and for the
(claimed-universal) target power `-1` on a unit-power field the returned
power is `0` (NaN data in torch), not `-1`. -/
theorem normalize_ratio_counterexample :
    normalizeRatio f32_max zero_field 1 = f32_max ∧ f32_max ≠ 0 ∧
      (Field.normalize f32_max witness_field_ok (-1)).power = 0 := by
  refine ⟨?_, by norm_num [f32_max], ?_⟩
  · rw [normalizeRatio, zero_field_power, fdiv]
    norm_num [nanToNum]
  · have hr : normalizeRatio f32_max witness_field_ok (-1) = -1 := by
      rw [normalizeRatio, witness_field_power_one, fdiv]
      norm_num [nanToNum]
    have hs : Real.sqrt (normalizeRatio f32_max witness_field_ok (-1)) = 0 := by
      rw [hr]
      refine Real.sqrt_eq_zero'.mpr ?_
      norm_num
    rw [Field.power]
    simp only [Field.normalize]
    rw [hs]
    simp

/-- C7 (amended): for every non-negative target power `p`: when the input
power is nonzero the returned field's `power()` equals `p` exactly; when the
input power is zero the returned data is identically zero on the grid, and
the rescaling ratio is `0` in the `0/0` case but the dtype's largest finite
value when `p > 0` (`nan_to_num` maps the infinite quotient to the finite
max, not to zero). -/
theorem normalize_power_postcondition (fmax : ℝ) (f : Field) (p : ℝ)
    (hp : 0 ≤ p) (hd1 : 0 < f.d1) (hd2 : 0 < f.d2) :
    (f.power ≠ 0 → (Field.normalize fmax f p).power = p) ∧
    (f.power = 0 →
      (∀ i < f.m, ∀ j < f.n, (Field.normalize fmax f p).data i j = 0) ∧
      normalizeRatio fmax f p = (if p = 0 then 0 else fmax)) := by
  have harea : 0 < f.d1 * f.d2 := by positivity
  have hSigma : 0 ≤ ∑ i ∈ range f.m, ∑ j ∈ range f.n, Complex.abs (f.data i j) ^ 2 := by
    positivity
  constructor
  · intro hP
    have hr : normalizeRatio fmax f p = p / f.power := by
      rw [normalizeRatio, fdiv, if_neg hP, nanToNum]
    have hPpos : 0 < f.power := by
      rcases hSigma.lt_or_eq with h | h
      · rw [Field.power]
        positivity
      · exact absurd (by rw [Field.power, ← h, zero_mul]) hP
    have hrnn : 0 ≤ normalizeRatio fmax f p := by
      rw [hr]
      exact div_nonneg hp hPpos.le
    have hsq : Real.sqrt (normalizeRatio fmax f p) ^ 2 = normalizeRatio fmax f p :=
      Real.sq_sqrt hrnn
    have hterm : ∀ i j : ℕ,
        Complex.abs (f.data i j *
          ((Real.sqrt (normalizeRatio fmax f p) : ℝ) : ℂ)) ^ 2 =
        Complex.abs (f.data i j) ^ 2 * normalizeRatio fmax f p := by
      intro i j
      rw [map_mul, Complex.abs_ofReal,
        abs_of_nonneg (Real.sqrt_nonneg _), mul_pow, hsq]
    rw [Field.power]
    simp only [Field.normalize]
    simp only [hterm, ← Finset.sum_mul]
    have hSne : (∑ i ∈ range f.m, ∑ j ∈ range f.n,
        Complex.abs (f.data i j) ^ 2) ≠ 0 := by
      intro h0
      exact hP (by rw [Field.power, h0, zero_mul])
    rw [hr, Field.power]
    field_simp
    ring
  · intro hP0
    have hSigma0 : ∑ i ∈ range f.m, ∑ j ∈ range f.n, Complex.abs (f.data i j) ^ 2 = 0 := by
      rw [Field.power] at hP0
      rcases mul_eq_zero.mp hP0 with h | h
      · exact h
      · exact absurd h harea.ne'
    have hdat : ∀ i < f.m, ∀ j < f.n, f.data i j = 0 := by
      intro i hi j hj
      have h1 := (Finset.sum_eq_zero_iff_of_nonneg
        (fun i _ => Finset.sum_nonneg fun j _ => by positivity)).mp hSigma0 i
        (mem_range.mpr hi)
      have h2 := (Finset.sum_eq_zero_iff_of_nonneg fun j _ => by positivity).mp h1 j
        (mem_range.mpr hj)
      have h3 : Complex.abs (f.data i j) = 0 := by
        have := sq_eq_zero_iff.mp h2
        exact this
      exact (AbsoluteValue.eq_zero _).mp h3
    refine ⟨?_, ?_⟩
    · intro i hi j hj
      simp only [Field.normalize]
      rw [hdat i hi j hj, zero_mul]
    · rw [normalizeRatio, hP0, fdiv, if_pos rfl]
      by_cases hp0 : p = 0
      · rw [if_pos hp0, hp0, if_pos rfl, nanToNum]
      · rw [if_neg hp0, if_pos (lt_of_le_of_ne hp (Ne.symm hp0)), nanToNum,
          if_neg hp0]

/-- Witness for C7: the unit-power witness field normalised to target power 9
has power exactly 9. -/
theorem normalize_power_postcondition_witness :
    witness_field_ok.power ≠ 0 ∧
      (Field.normalize f32_max witness_field_ok 9).power = 9 := by
  have hP : witness_field_ok.power ≠ 0 := by
    rw [witness_field_power_one]
    norm_num
  exact ⟨hP, (normalize_power_postcondition f32_max witness_field_ok 9
    (by norm_num) (by norm_num [witness_field_ok]) (by norm_num [witness_field_ok])).1 hP⟩

/-! ### Claim C9: `System` path dispatch and validation

`System.elements_in_field_path` sorts the elements by `z` (Python's stable
`sorted`, modelled by a stable insertion sort), keeps those with
`field.z <= element.z`, and — when an output element is given — further
keeps those with `element.z <= output.z`, pops a trailing `IdentityElement`,
and appends the output element; `_validate_elements_in_field_path` then
raises `ValueError` on an empty path or a last element before the field, and
`TypeError` when a non-final element is not a (polarized) modulation
element.  The final `isinstance(path[-1], Element)` check is trivially true
in this model.  `System._forward` folds `field = element(field.propagate_to_plane(element))`
over the path. -/

/-- Closed kinds of system elements, modelled from the spec's element
polymorphism ({pure-modulation, polarized-modulation, terminal/output}) and
the `isinstance` checks in `system.py` (the class hierarchy of the
`elements` module is outside the propagation-core sources):
`ModulationElement`, `PolarizedModulationElement`, the `IdentityElement`
used as `measure`'s output element, and any other terminal `Element`. -/
inductive ElemKind where
  | modulation : ElemKind
  | polarizedModulation : ElemKind
  | identityElement : ElemKind
  | otherElement : ElemKind
deriving DecidableEq

/-- A system element as seen by the path logic: `z` position (ℚ models the
real axis with decidable comparisons), kind, and a tag distinguishing
distinct elements at equal geometry. -/
structure SysElement where
  z : ℚ
  kind : ElemKind
  tag : ℕ
deriving DecidableEq

/-- Stable insertion: the new element goes after every existing element with
`z` not larger than its own. -/
def insertZ (e : SysElement) : List SysElement → List SysElement
  | [] => [e]
  | a :: as => if a.z < e.z then a :: insertZ e as else e :: a :: as

/-- `System.sorted_elements()`: a stable sort by `z`. -/
def sortZ : List SysElement → List SysElement :=
  List.foldr insertZ []

/-- The `isinstance(element, (ModulationElement, PolarizedModulationElement))`
test of the path validation. -/
def isModulationKind (e : SysElement) : Bool :=
  decide (e.kind = ElemKind.modulation) ||
    decide (e.kind = ElemKind.polarizedModulation)

/-- The sorted elements with `field.z <= element.z`. -/
def elements_in_range (sys : List SysElement) (fieldZ : ℚ) : List SysElement :=
  (sortZ sys).filter (fun e => decide (fieldZ ≤ e.z))

/-- The in-range elements further restricted to `element.z <= output.z`. -/
def field_path_upto (sys : List SysElement) (fieldZ : ℚ) (out : SysElement) :
    List SysElement :=
  (elements_in_range sys fieldZ).filter (fun e => decide (e.z ≤ out.z))

/-- The path before validation: without an output element, the in-range
elements; with one, the in-range elements up to `output.z`, a trailing
`IdentityElement` popped, and the output element appended. -/
def raw_field_path (sys : List SysElement) (fieldZ : ℚ)
    (out? : Option SysElement) : List SysElement :=
  match out? with
  | none => elements_in_range sys fieldZ
  | some out =>
    (if field_path_upto sys fieldZ out ≠ [] ∧
        ((field_path_upto sys fieldZ out).getLast?).map SysElement.kind =
          some ElemKind.identityElement
      then (field_path_upto sys fieldZ out).dropLast
      else field_path_upto sys fieldZ out) ++ [out]

/-- Errors of `System._validate_elements_in_field_path`. -/
inductive PathError where
  | valueError : PathError
  | typeError : PathError
deriving DecidableEq

/-- Embedding of `System._validate_elements_in_field_path`. -/
def validate_elements_in_field_path (fieldZ : ℚ) (path : List SysElement) :
    Except PathError Unit :=
  match path.getLast? with
  | none => .error .valueError
  | some last =>
    if last.z < fieldZ then .error .valueError
    else if path.dropLast.all isModulationKind then .ok ()
    else .error .typeError

/-- Embedding of `System.elements_in_field_path`. -/
def elements_in_field_path (sys : List SysElement) (fieldZ : ℚ)
    (out? : Option SysElement) : Except PathError (List SysElement) := do
  let path := raw_field_path sys fieldZ out?
  let _ ← validate_elements_in_field_path fieldZ path
  pure path

/-- Embedding of `System._forward` (and `measure` when an output element is
given): fold `field = element(field.propagate_to_plane(element))` over the
path, with the propagation and element application abstract. -/
def system_forward {α : Type} (prop : α → SysElement → α)
    (app : SysElement → α → α) (sys : List SysElement) (fieldZ : ℚ)
    (out? : Option SysElement) (f0 : α) : Except PathError α :=
  (elements_in_field_path sys fieldZ out?).map
    (List.foldl (fun fld e => app e (prop fld e)) f0)

/-- Helper: `insertZ` produces a permutation of consing. -/
theorem insertZ_perm (e : SysElement) (l : List SysElement) :
    (insertZ e l).Perm (e :: l) := by
  induction l with
  | nil => rfl
  | cons a as ih =>
    rw [insertZ]
    split
    · exact ((ih.cons a).trans (List.Perm.swap e a as))
    · rfl

/-- Helper: `sortZ` permutes its input. -/
theorem sortZ_perm (l : List SysElement) : (sortZ l).Perm l := by
  induction l with
  | nil => rfl
  | cons a as ih => exact (insertZ_perm a (sortZ as)).trans (ih.cons a)

/-- Helper: `insertZ` preserves sortedness by `z`. -/
theorem insertZ_sorted (e : SysElement) (l : List SysElement)
    (h : l.Sorted (fun a b => a.z ≤ b.z)) :
    (insertZ e l).Sorted (fun a b => a.z ≤ b.z) := by
  induction l with
  | nil => simp [insertZ]
  | cons a as ih =>
    rw [List.sorted_cons] at h
    rw [insertZ]
    split
    · rename_i hlt
      rw [List.sorted_cons]
      refine ⟨fun b hb => ?_, ih h.2⟩
      rcases List.mem_cons.mp ((insertZ_perm e as).mem_iff.mp hb) with hb | hb
      · rw [hb]
        exact le_of_lt hlt
      · exact h.1 b hb
    · rename_i hnlt
      rw [List.sorted_cons]
      refine ⟨fun b hb => ?_, List.sorted_cons.mpr h⟩
      rcases List.mem_cons.mp hb with hb | hb
      · rw [hb]
        exact le_of_not_lt hnlt
      · exact le_trans (le_of_not_lt hnlt) (h.1 b hb)

/-- Helper: `sortZ` sorts by `z`. -/
theorem sortZ_sorted (l : List SysElement) :
    (sortZ l).Sorted (fun a b => a.z ≤ b.z) := by
  induction l with
  | nil => simp [sortZ]
  | cons a as ih => exact insertZ_sorted a (sortZ as) ih

/-- The identity element at `z = 1` of the counterexample system. -/
def idElemC : SysElement := ⟨1, .identityElement, 0⟩

/-- The output element at `z = 2` (an `IdentityElement`, as `measure`
creates). -/
def outElemC : SysElement := ⟨2, .identityElement, 1⟩

/-- Counterexample for C9: a system whose only element is an
`IdentityElement` at `z = 1`, with a field at `z = 0` and an output element
at `z = 2`, processes only the output element: the in-range identity element
is popped (the behaviour asserted by `test_identity_element`), so the
processed elements are not "exactly the elements with
`field.z ≤ element.z ≤ output z`". -/
theorem system_path_pop_counterexample :
    elements_in_field_path [idElemC] 0 (some outElemC) = .ok [outElemC] ∧
      (0 : ℚ) ≤ idElemC.z ∧ idElemC.z ≤ outElemC.z ∧ idElemC ∉ [outElemC] := by
  refine ⟨?_, by norm_num [idElemC], by norm_num [idElemC, outElemC], by decide⟩
  rfl

/-- Helper: `elements_in_field_path` as a `match` on the validation result. -/
theorem elements_in_field_path_eq (sys : List SysElement) (fieldZ : ℚ)
    (out? : Option SysElement) :
    elements_in_field_path sys fieldZ out? =
      match validate_elements_in_field_path fieldZ (raw_field_path sys fieldZ out?) with
      | .error e => .error e
      | .ok _ => .ok (raw_field_path sys fieldZ out?) := by
  rw [elements_in_field_path]
  rcases validate_elements_in_field_path fieldZ (raw_field_path sys fieldZ out?) with e | u
  · rfl
  · rfl

/-- Helper: a successful path call returns the raw path, with validation
passing. -/
theorem path_ok_inv {sys : List SysElement} {fieldZ : ℚ} {out? : Option SysElement}
    {l : List SysElement} (h : elements_in_field_path sys fieldZ out? = .ok l) :
    l = raw_field_path sys fieldZ out? := by
  rw [elements_in_field_path_eq] at h
  rcases hv : validate_elements_in_field_path fieldZ (raw_field_path sys fieldZ out?)
    with e | u
  · rw [hv] at h
    exact absurd h (by simp)
  · rw [hv] at h
    exact ((Except.ok.injEq _ _).mp h).symm

/-- Helper: the in-range elements are sorted by `z`. -/
theorem elements_in_range_sorted (sys : List SysElement) (fieldZ : ℚ) :
    (elements_in_range sys fieldZ).Sorted (fun a b => a.z ≤ b.z) :=
  (sortZ_sorted sys).sublist (List.filter_sublist _)

/-- Helper: the in-range elements are exactly the system elements with
`field.z ≤ z`, up to order. -/
theorem elements_in_range_perm (sys : List SysElement) (fieldZ : ℚ) :
    (elements_in_range sys fieldZ).Perm
      (sys.filter (fun e => decide (fieldZ ≤ e.z))) :=
  (sortZ_perm sys).filter _

/-- Helper: the range-and-output restriction is sorted. -/
theorem field_path_upto_sorted (sys : List SysElement) (fieldZ : ℚ)
    (out : SysElement) :
    (field_path_upto sys fieldZ out).Sorted (fun a b => a.z ≤ b.z) :=
  (elements_in_range_sorted sys fieldZ).sublist (List.filter_sublist _)

/-- Helper: the range-and-output restriction is exactly the system elements
with `field.z ≤ z ≤ output.z`, up to order. -/
theorem field_path_upto_perm (sys : List SysElement) (fieldZ : ℚ)
    (out : SysElement) :
    (field_path_upto sys fieldZ out).Perm
      (sys.filter (fun e => decide (e.z ≤ out.z) && decide (fieldZ ≤ e.z))) := by
  rw [field_path_upto, elements_in_range, List.filter_filter]
  exact (sortZ_perm sys).filter _

/-- Helper: every element of the range-and-output restriction lies at or
before the output plane. -/
theorem field_path_upto_le (sys : List SysElement) (fieldZ : ℚ)
    (out : SysElement) :
    ∀ e ∈ field_path_upto sys fieldZ out, e.z ≤ out.z := by
  intro e he
  exact of_decide_eq_true (List.mem_filter.mp he).2

/-- Helper: the raw path is sorted by `z` (ascending processing order). -/
theorem raw_field_path_sorted (sys : List SysElement) (fieldZ : ℚ)
    (out? : Option SysElement) :
    (raw_field_path sys fieldZ out?).Sorted (fun a b => a.z ≤ b.z) := by
  rcases out? with _ | out
  · exact elements_in_range_sorted sys fieldZ
  · show ((if _ then _ else _) ++ [out]).Sorted (fun a b => a.z ≤ b.z)
    have hq2 : ∃ q2 : List SysElement,
        (if field_path_upto sys fieldZ out ≠ [] ∧
            ((field_path_upto sys fieldZ out).getLast?).map SysElement.kind =
              some ElemKind.identityElement
          then (field_path_upto sys fieldZ out).dropLast
          else field_path_upto sys fieldZ out) = q2 ∧
        q2.Sublist (field_path_upto sys fieldZ out) := by
      split
      · exact ⟨_, rfl, List.dropLast_sublist _⟩
      · exact ⟨_, rfl, List.Sublist.refl _⟩
    obtain ⟨q2, hq2eq, hq2sub⟩ := hq2
    rw [hq2eq]
    refine List.pairwise_append.mpr
      ⟨(field_path_upto_sorted sys fieldZ out).sublist hq2sub, by simp, ?_⟩
    intro a ha b hb
    rw [List.mem_singleton.mp hb]
    exact field_path_upto_le sys fieldZ out a (hq2sub.subset ha)

/-- C9 (amended): a successful `elements_in_field_path` call processes the
elements with `field.z ≤ element.z` (further `≤ output z` and with a
trailing in-range `IdentityElement` dropped when an output element is given,
which is then appended) in ascending `z` order, and `system_forward` folds
propagate-then-apply over exactly that path; an empty path or a last element
before the field's `z` yields the `ValueError`, and a non-modulation element
anywhere before the last yields the `TypeError`. -/
theorem system_path_dispatch {α : Type} (prop : α → SysElement → α)
    (app : SysElement → α → α) (f0 : α) (sys : List SysElement) (fieldZ : ℚ)
    (out? : Option SysElement) :
    (∀ l, elements_in_field_path sys fieldZ out? = .ok l →
      l.Sorted (fun a b => a.z ≤ b.z) ∧
      (out? = none → l.Perm (sys.filter (fun e => decide (fieldZ ≤ e.z)))) ∧
      (∀ out, out? = some out → ∃ q : List SysElement,
        q.Sorted (fun a b => a.z ≤ b.z) ∧
        q.Perm (sys.filter (fun e => decide (e.z ≤ out.z) && decide (fieldZ ≤ e.z))) ∧
        ((q ≠ [] ∧ (q.getLast?).map SysElement.kind = some ElemKind.identityElement ∧
            l = q.dropLast ++ [out]) ∨
          (¬ (q ≠ [] ∧ (q.getLast?).map SysElement.kind =
              some ElemKind.identityElement) ∧ l = q ++ [out]))) ∧
      system_forward prop app sys fieldZ out? f0 =
        .ok (l.foldl (fun fld e => app e (prop fld e)) f0)) ∧
    (raw_field_path sys fieldZ out? = [] →
      elements_in_field_path sys fieldZ out? = .error .valueError) ∧
    (∀ last, (raw_field_path sys fieldZ out?).getLast? = some last →
      last.z < fieldZ →
      elements_in_field_path sys fieldZ out? = .error .valueError) ∧
    (∀ last, (raw_field_path sys fieldZ out?).getLast? = some last →
      ¬ last.z < fieldZ →
      (raw_field_path sys fieldZ out?).dropLast.all isModulationKind = false →
      elements_in_field_path sys fieldZ out? = .error .typeError) := by
  refine ⟨?_, ?_, ?_, ?_⟩
  · intro l hok
    have hl := path_ok_inv hok
    subst hl
    refine ⟨raw_field_path_sorted sys fieldZ out?, ?_, ?_, ?_⟩
    · intro hnone
      subst hnone
      exact elements_in_range_perm sys fieldZ
    · intro out hout
      subst hout
      refine ⟨field_path_upto sys fieldZ out, field_path_upto_sorted sys fieldZ out,
        field_path_upto_perm sys fieldZ out, ?_⟩
      by_cases hc : field_path_upto sys fieldZ out ≠ [] ∧
          ((field_path_upto sys fieldZ out).getLast?).map SysElement.kind =
            some ElemKind.identityElement
      · left
        refine ⟨hc.1, hc.2, ?_⟩
        show (if _ then _ else _) ++ [out] = _
        rw [if_pos hc]
      · right
        refine ⟨hc, ?_⟩
        show (if _ then _ else _) ++ [out] = _
        rw [if_neg hc]
    · rw [system_forward, hok]
      rfl
  · intro hraw
    rw [elements_in_field_path_eq]
    have hv : validate_elements_in_field_path fieldZ (raw_field_path sys fieldZ out?) =
        .error .valueError := by
      rw [hraw]
      rfl
    rw [hv]
  · intro last hlast hlt
    rw [elements_in_field_path_eq]
    have hv : validate_elements_in_field_path fieldZ (raw_field_path sys fieldZ out?) =
        .error .valueError := by
      simp only [validate_elements_in_field_path, hlast]
      rw [if_pos hlt]
    rw [hv]
  · intro last hlast hlt hall
    rw [elements_in_field_path_eq]
    have hv : validate_elements_in_field_path fieldZ (raw_field_path sys fieldZ out?) =
        .error .typeError := by
      simp only [validate_elements_in_field_path, hlast]
      rw [if_neg hlt, hall]
      rfl
    rw [hv]

/-- A modulation element at `z = 1` for the witness system. -/
def modElemW : SysElement := ⟨1, .modulation, 2⟩

/-- Witness for C9: on a system with one modulation element at `z = 1`, a
field at `z = 0` and an output element at `z = 2`, the validated path is the
modulation element followed by the output element in ascending order, and
`system_forward` folds apply-after-propagate over it. -/
theorem system_path_dispatch_witness :
    elements_in_field_path [modElemW] 0 (some outElemC) =
      .ok [modElemW, outElemC] ∧
    List.Sorted (fun a b : SysElement => a.z ≤ b.z) [modElemW, outElemC] ∧
    system_forward (fun (a : ℕ) _ => a + 1) (fun _ a => a * 3) [modElemW] 0
      (some outElemC) 0 = .ok 12 := by
  have hok : elements_in_field_path [modElemW] 0 (some outElemC) =
      .ok [modElemW, outElemC] := by rfl
  obtain ⟨h1, _, _, h4⟩ := (system_path_dispatch (fun (a : ℕ) _ => a + 1)
    (fun _ a => a * 3) 0 [modElemW] 0 (some outElemC)).1 [modElemW, outElemC] hok
  exact ⟨hok, h1, h4⟩

/-! ### Claim C8: `plane_sample`

`plane_sample` (src/torchoptics/functional/functional.py) reshapes the data
to `(B, 1, H, W)` (`unsqueeze(0).unsqueeze(0)` for 2-D input,
`flatten(end_dim=-3)` plus `unsqueeze(-3)` otherwise — both are the
row-major index transformation below), builds the sampling grid from the
target plane's grid-point bounds relative to the source plane's offset,
normalised by the source plane's half-length, calls
`torch.nn.functional.grid_sample` (`align_corners=False`, zero padding) on
the real and imaginary parts separately for complex data, and views the
result back to `data.shape[:-2] + interpolated_plane.shape`. -/

/-- A complex tensor: a shape together with a total valuation of row-major
multi-indices (only indices below the shape are meaningful). -/
structure TensorC where
  shape : List ℕ
  val : List ℕ → ℂ

/-- Row-major linearisation of a multi-index. -/
def linIdx : List ℕ → List ℕ → ℕ
  | _ :: ss, i :: is => i * ss.prod + linIdx ss is
  | _, _ => 0

/-- Row-major delinearisation of a flat index. -/
def delinIdx : List ℕ → ℕ → List ℕ
  | [], _ => []
  | _ :: ss, k => k / ss.prod :: delinIdx ss (k % ss.prod)

/-- Interpolation modes accepted by `grid_sample`. -/
inductive InterpMode where
  | nearest : InterpMode
  | bilinear : InterpMode
  | bicubic : InterpMode

/-- The `align_corners=False` coordinate unnormalisation of `grid_sample`:
a normalised coordinate in `[-1, 1]` maps to pixel `((coord+1)*size - 1)/2`. -/
def unnormalize (size : ℕ) (coord : ℝ) : ℝ := ((coord + 1) * size - 1) / 2

/-- A zero-padded pixel read (`grid_sample` with `padding_mode="zeros"`). -/
def getPadZero (H W : ℕ) (f : ℕ → ℕ → ℝ) (y x : ℤ) : ℝ :=
  if 0 ≤ y ∧ y < H ∧ 0 ≤ x ∧ x < W then f y.toNat x.toNat else 0

/-- The `a = -3/4` cubic convolution kernel of bicubic interpolation. -/
def cubicKernel (t : ℝ) : ℝ :=
  if |t| ≤ 1 then (5 / 4) * |t| ^ 3 - (9 / 4) * |t| ^ 2 + 1
  else if |t| < 2 then (-3 / 4) * (|t| ^ 3 - 5 * |t| ^ 2 + 8 * |t| - 4)
  else 0

/-- One `grid_sample` output sample over an `H × W` input channel at
(unnormalised) pixel coordinates `(y, x)`. -/
def gridSamplePix (mode : InterpMode) (H W : ℕ) (f : ℕ → ℕ → ℝ) (y x : ℝ) : ℝ :=
  match mode with
  | .nearest => getPadZero H W f ⌊y + 1 / 2⌋ ⌊x + 1 / 2⌋
  | .bilinear =>
    (1 - (y - ⌊y⌋)) * ((1 - (x - ⌊x⌋)) * getPadZero H W f ⌊y⌋ ⌊x⌋ +
        (x - ⌊x⌋) * getPadZero H W f ⌊y⌋ (⌊x⌋ + 1)) +
      (y - ⌊y⌋) * ((1 - (x - ⌊x⌋)) * getPadZero H W f (⌊y⌋ + 1) ⌊x⌋ +
        (x - ⌊x⌋) * getPadZero H W f (⌊y⌋ + 1) (⌊x⌋ + 1))
  | .bicubic =>
    ∑ r ∈ range 4, ∑ c ∈ range 4,
      cubicKernel (y - ((⌊y⌋ - 1 + r : ℤ) : ℝ)) *
        cubicKernel (x - ((⌊x⌋ - 1 + c : ℤ) : ℝ)) *
        getPadZero H W f (⌊y⌋ - 1 + r) (⌊x⌋ - 1 + c)

/-- Embedding of `linspace_grad`. -/
def linspace_grad (start endv : ℝ) (steps : ℕ) (i : ℕ) : ℝ :=
  if steps = 1 then start
  else start + i * ((endv - start) / ((steps : ℝ) - 1))

/-- The first-axis sampling coordinate of `plane_sample` (`grid_x` of
`meshgrid2d(extent_ratio, interpolated_plane.shape)`): target grid-point
bounds relative to the source offset over the source half-length. -/
def gridXCoord (dp ip : Plane) (i : ℕ) : ℝ :=
  linspace_grad
    ((ip.o1 - ip.d1 * ((ip.m : ℝ) - 1) / 2 - dp.o1) / (dp.d1 * dp.m / 2))
    ((ip.o1 + ip.d1 * ((ip.m : ℝ) - 1) / 2 - dp.o1) / (dp.d1 * dp.m / 2))
    ip.m i

/-- The second-axis sampling coordinate of `plane_sample` (`grid_y`). -/
def gridYCoord (dp ip : Plane) (j : ℕ) : ℝ :=
  linspace_grad
    ((ip.o2 - ip.d2 * ((ip.n : ℝ) - 1) / 2 - dp.o2) / (dp.d2 * dp.n / 2))
    ((ip.o2 + ip.d2 * ((ip.n : ℝ) - 1) / 2 - dp.o2) / (dp.d2 * dp.n / 2))
    ip.n j

/-- The leading (batch) dimensions of a tensor shape. -/
def batchShape (s : List ℕ) : List ℕ := s.dropLast.dropLast

/-- The height (`shape[-2]`) of a tensor shape. -/
def dimH (s : List ℕ) : ℕ := s.dropLast.getLastD 0

/-- The width (`shape[-1]`) of a tensor shape. -/
def dimW (s : List ℕ) : ℕ := s.getLastD 0

/-- Embedding of `plane_sample`: flatten the batch into a `(B, 1, H, W)`
view, sample each channel on the target grid — the stacked grid is
`(grid_y, grid_x)`, so `grid_sample`'s x (width) coordinate is `grid_y` and
its y (height) coordinate is `grid_x` — interpolating the real and
imaginary parts independently, then view the `(B, 1, M1, M2)` result back to
`data.shape[:-2] + interpolated_plane.shape`. -/
def plane_sample (data : TensorC) (data_plane interpolated_plane : Plane)
    (mode : InterpMode) : TensorC :=
  { shape := batchShape data.shape ++ [interpolated_plane.m, interpolated_plane.n],
    val := fun idx =>
      let H := dimH data.shape
      let W := dimW data.shape
      let q := delinIdx
        [(batchShape data.shape).prod, 1, interpolated_plane.m, interpolated_plane.n]
        (linIdx (batchShape data.shape ++ [interpolated_plane.m, interpolated_plane.n]) idx)
      let input4 : ℕ → ℕ → ℕ → ℕ → ℂ := fun b _c h w =>
        data.val (delinIdx (batchShape data.shape) b ++ [h, w])
      ⟨gridSamplePix mode H W (fun h w => (input4 (q.getD 0 0) (q.getD 1 0) h w).re)
          (unnormalize H (gridXCoord data_plane interpolated_plane (q.getD 2 0)))
          (unnormalize W (gridYCoord data_plane interpolated_plane (q.getD 3 0))),
        gridSamplePix mode H W (fun h w => (input4 (q.getD 0 0) (q.getD 1 0) h w).im)
          (unnormalize H (gridXCoord data_plane interpolated_plane (q.getD 2 0)))
          (unnormalize W (gridYCoord data_plane interpolated_plane (q.getD 3 0)))⟩ }

/-- Helper: a valid multi-index linearises below the shape's product. -/
theorem linIdx_lt {shape idx : List ℕ} (h : List.Forall₂ (· < ·) idx shape) :
    linIdx shape idx < shape.prod := by
  induction h with
  | nil => simp [linIdx]
  | @cons i s is ss h1 h2 ih =>
    show i * ss.prod + linIdx ss is < (s :: ss).prod
    rw [List.prod_cons]
    calc i * ss.prod + linIdx ss is < i * ss.prod + ss.prod := by omega
      _ = (i + 1) * ss.prod := by ring
      _ ≤ s * ss.prod := Nat.mul_le_mul_right _ (Nat.succ_le_of_lt h1)

/-- Helper: delinearisation inverts linearisation on valid multi-indices. -/
theorem delin_lin {shape idx : List ℕ} (h : List.Forall₂ (· < ·) idx shape) :
    delinIdx shape (linIdx shape idx) = idx := by
  induction h with
  | nil => rfl
  | @cons i s is ss h1 h2 ih =>
    have hr := linIdx_lt h2
    have hP : 0 < ss.prod := by omega
    show delinIdx (s :: ss) (i * ss.prod + linIdx ss is) = i :: is
    rw [delinIdx]
    congr 1
    · rw [add_comm, Nat.add_mul_div_right _ _ hP, Nat.div_eq_of_lt hr]
      omega
    · rw [mul_comm i ss.prod, Nat.mul_add_mod, Nat.mod_eq_of_lt hr]
      exact ih

/-- Helper: linearisation splits over an append of index blocks. -/
theorem linIdx_append {s1 i1 : List ℕ} (s2 i2 : List ℕ)
    (h : List.Forall₂ (· < ·) i1 s1) :
    linIdx (s1 ++ s2) (i1 ++ i2) = linIdx s1 i1 * s2.prod + linIdx s2 i2 := by
  induction h with
  | nil => simp [linIdx]
  | @cons i s is ss h1 h2 ih =>
    show i * (ss ++ s2).prod + linIdx (ss ++ s2) (is ++ i2) = _
    rw [ih, List.prod_append]
    show _ = (i * ss.prod + linIdx ss is) * s2.prod + linIdx s2 i2
    ring

/-- Helper: the flat index of batch element `Lb`, pixel `(i, j)`
delinearises in the `(B, 1, M1, M2)` view to `[Lb, 0, i, j]`. -/
theorem view_index (B M1 M2 Lb i j : ℕ) (hLb : Lb < B) (hi : i < M1)
    (hj : j < M2) :
    delinIdx [B, 1, M1, M2]
        (Lb * ([M1, M2] : List ℕ).prod + linIdx [M1, M2] [i, j]) =
      [Lb, 0, i, j] := by
  have heq : Lb * ([M1, M2] : List ℕ).prod + linIdx [M1, M2] [i, j] =
      linIdx [B, 1, M1, M2] [Lb, 0, i, j] := by
    simp [linIdx, List.prod_cons]
  rw [heq]
  refine delin_lin ?_
  refine List.Forall₂.cons hLb ?_
  refine List.Forall₂.cons (by norm_num) ?_
  refine List.Forall₂.cons hi ?_
  exact List.Forall₂.cons hj List.Forall₂.nil

/-- C8: for data shaped `bs ++ [H, W]`, `plane_sample` returns a tensor
shaped `bs ++ interpolated_plane.shape` — every leading batch dimension is
carried through unchanged — and at each batch index the trailing plane is
the grid-sample of that very batch slice, with real and imaginary parts
interpolated independently. -/
theorem plane_sample_contract (data : TensorC) (dp ip : Plane)
    (mode : InterpMode) (bs : List ℕ) (H W : ℕ)
    (hshape : data.shape = bs ++ [H, W]) :
    (plane_sample data dp ip mode).shape = bs ++ [ip.m, ip.n] ∧
    (∀ bidx, List.Forall₂ (· < ·) bidx bs → ∀ i < ip.m, ∀ j < ip.n,
      (plane_sample data dp ip mode).val (bidx ++ [i, j]) =
        ⟨gridSamplePix mode H W (fun h w => (data.val (bidx ++ [h, w])).re)
            (unnormalize H (gridXCoord dp ip i))
            (unnormalize W (gridYCoord dp ip j)),
          gridSamplePix mode H W (fun h w => (data.val (bidx ++ [h, w])).im)
            (unnormalize H (gridXCoord dp ip i))
            (unnormalize W (gridYCoord dp ip j))⟩) := by
  have hsplit : bs ++ [H, W] = (bs ++ [H]) ++ [W] := by simp
  have hbs : batchShape data.shape = bs := by
    rw [hshape, batchShape, hsplit, List.dropLast_concat, List.dropLast_concat]
  have hH : dimH data.shape = H := by
    rw [hshape, dimH, hsplit, List.dropLast_concat, List.getLastD_concat]
  have hW : dimW data.shape = W := by
    rw [hshape, dimW, hsplit, List.getLastD_concat]
  constructor
  · show batchShape data.shape ++ [ip.m, ip.n] = bs ++ [ip.m, ip.n]
    rw [hbs]
  · intro bidx hbidx i hi j hj
    have hq : delinIdx
        [(batchShape data.shape).prod, 1, ip.m, ip.n]
        (linIdx (batchShape data.shape ++ [ip.m, ip.n]) (bidx ++ [i, j])) =
        [linIdx bs bidx, 0, i, j] := by
      rw [hbs, linIdx_append [ip.m, ip.n] [i, j] hbidx]
      exact view_index bs.prod ip.m ip.n (linIdx bs bidx) i j
        (linIdx_lt hbidx) hi hj
    simp only [plane_sample]
    rw [hq]
    simp only [List.getD_cons_zero, List.getD_cons_succ]
    rw [hbs, hH, hW, delin_lin hbidx]

/-- A concrete `2 × 1 × 1` data tensor (one leading batch dimension). -/
def dataW : TensorC := ⟨[2, 1, 1], fun _ => 1⟩

/-- A concrete `1 × 1` source plane at the origin with unit spacing. -/
def dpW : Plane := ⟨1, 1, 0, 1, 1, 0, 0⟩

/-- A concrete `1 × 1` target plane. -/
def ipW : Plane := ⟨1, 1, 0, 1, 1, 0, 0⟩

/-- Witness for C8: on the concrete batched tensor, `plane_sample` carries
the batch dimension through and the value at batch index `1` is the
grid-sample of that slice's real and imaginary parts. -/
theorem plane_sample_contract_witness :
    (plane_sample dataW dpW ipW .bilinear).shape = [2] ++ [ipW.m, ipW.n] ∧
    (plane_sample dataW dpW ipW .bilinear).val ([1] ++ [0, 0]) =
      ⟨gridSamplePix .bilinear 1 1 (fun h w => (dataW.val ([1] ++ [h, w])).re)
          (unnormalize 1 (gridXCoord dpW ipW 0))
          (unnormalize 1 (gridYCoord dpW ipW 0)),
        gridSamplePix .bilinear 1 1 (fun h w => (dataW.val ([1] ++ [h, w])).im)
          (unnormalize 1 (gridXCoord dpW ipW 0))
          (unnormalize 1 (gridYCoord dpW ipW 0))⟩ := by
  obtain ⟨h1, h2⟩ := plane_sample_contract dataW dpW ipW .bilinear [2] 1 1 rfl
  exact ⟨h1, h2 [1] (List.Forall₂.cons (by norm_num) List.Forall₂.nil) 0
    (by norm_num [ipW]) 0 (by norm_num [ipW])⟩

end

end TorchOptics
